import Mathlib

/-!
# Verification of the `aisdi` sequential containers (`Vector.h`, `LinkedList.h`)

This file gives a shallow embedding, in Lean 4, of the two container
implementations of the repository:

* `Vector<Type>` (`src/Vector.h`): a growable contiguous buffer with
  `size`/`capacity` bookkeeping and a tri-state (`REGULAR`/`BEGIN`/`END`)
  tagged cursor.
* `LinkedList<Type>` (`src/LinkedList.h`): a doubly linked list with two
  permanent guard nodes, modelled as a pointer machine over an explicit heap
  `Nat → LNode T` with a bump allocator (addresses are never reused, which
  models `new`/`delete` without address recycling).

Design of the embedding:

* machine integers: `size_t` values are modelled as `Nat`; the two places
  where the C++ code performs unsigned *casts/wrapping subtraction* that can
  be semantically visible (`(size_type)(currentElement - elements)` in
  `Vector::ConstIterator::operator++` / `calculateIndex`, and the index
  subtractions in `Vector::erase(first,last)`) are modelled explicitly with
  `toSizeT`, reduction modulo `2 ^ 64`;
* pointers: the address of a vector's buffer is an abstract `Int` (`base`);
  linked-list nodes live at `Nat` addresses, `0` plays the role of `nullptr`
  (allocation starts at address `1` and `0` is never dereferenced in any
  modelled run);
* fallible operations (`popFirst`, `popLast`, `erase(pos)`, iterator
  increment/decrement/dereference) return the container state at the moment
  of the `throw` together with an `Except`; since every `throw` in the source
  precedes all mutation, the state carried by an error is the input state,
  and this is *proved*, not assumed;
* reading or writing a buffer slot outside the allocated range is undefined
  behaviour in C++; the embedding models an out-of-range `List.set` as a
  no-op and an out-of-range read as `default`.  Theorems about well-formed
  states never exercise these branches; they only appear in the concrete
  demonstrations of the capacity-`0` defect.
-/

set_option autoImplicit false

/-- Error categories of the repository's error taxonomy (§7 of the spec):
`emptyCollection` models `std::logic_error` thrown by `popFirst`/`popLast`,
`invalidPosition` models `std::out_of_range` thrown by `erase` and the
iterator boundary checks.  `outOfFuel` is an artifact of the embedding: it is
returned when a modelled unbounded C++ loop is given insufficient fuel; all
theorems supply sufficient fuel, so it never occurs in a verified run. -/
inductive CErr where
  | emptyCollection
  | invalidPosition
  | outOfFuel
  deriving DecidableEq

/-- `Vector<Type>::ConstIterator::IteratorType` (`enum class {REGULAR, BEGIN, END}`). -/
inductive VIterTag where
  | REGULAR
  | BEGIN
  | END
  deriving DecidableEq

/-- The modulus of `std::size_t` on the (64-bit) target. -/
def sizeTMod : Int := 2 ^ 64

/-- Conversion of a pointer difference (`ptrdiff_t`, modelled as `Int`) to
`size_type`: reduction modulo `2 ^ 64`, as performed by the cast
`(size_type)(currentElement - collection->elements)` and by unsigned
subtraction of indices. -/
def toSizeT (d : Int) : Nat := (d % sizeTMod).toNat

/-- `Vector<Type>::ConstIterator`: a raw pointer value (`currentElement`,
modelled as an abstract address) plus the tri-state tag.  The back-reference
to the owning collection is passed explicitly to the operations that need
it. -/
structure VecIter where
  currentElement : Int
  tag : VIterTag
  deriving DecidableEq

/-- The state of a `Vector<Type>`:
`elements` holds the contents of the owned buffer (length = `capacity`;
empty when the `elements` pointer is null), `base` is the address value of
the `elements` pointer (`0` models `nullptr`), and `nextAddr` models the
allocator from which fresh buffers are drawn (a bump allocator: `new` never
returns an address overlapping a live allocation).

The source also stores a mutable cached `pastTheEnd` iterator whose target
pointer is refreshed by `preparePastTheEnd` on every `end()` call on a
non-empty vector; its refreshed value is exactly what `vecCEnd` computes, so
the cache itself carries no additional observable state and is not stored. -/
structure VecState (T : Type) where
  elements : List T
  base : Int
  size : Nat
  capacity : Nat
  nextAddr : Int

namespace VecState

variable {T : Type} [Inhabited T]

/-- `Vector(size_type initialCapacity)`: allocates a buffer of
`initialCapacity` default-initialized slots at address `a0`, `size = 0`. -/
def new (T : Type) [Inhabited T] (initialCapacity : Nat) (a0 : Int) : VecState T :=
  { elements := List.replicate initialCapacity default
    base := a0
    size := 0
    capacity := initialCapacity
    nextAddr := a0 + initialCapacity }

/-- The copy loop of `reallocateMemory(size_type)`:
`for (i = 0; i < size; i++) elements[i] = oldElements[i]`.  The recursion
writes index `n-1` last; since every index is written once, from `src` only,
the order is immaterial. -/
def copyFirst (src : List T) (dst : List T) : Nat → List T
  | 0 => dst
  | n + 1 => (copyFirst src dst n).set n (src.getD n default)

/-- `Vector::reallocateMemory(size_type newCapacity)`: allocate a fresh
buffer of `newCapacity` slots, copy the first `size` live elements, free the
old buffer. -/
def reallocateMemoryTo (v : VecState T) (newCapacity : Nat) : VecState T :=
  { elements := copyFirst v.elements (List.replicate newCapacity default) v.size
    base := v.nextAddr
    size := v.size
    capacity := newCapacity
    nextAddr := v.nextAddr + newCapacity }

/-- `Vector::reallocateMemory()`: `reallocateMemory(capacity*2)`. -/
def reallocateMemory (v : VecState T) : VecState T :=
  v.reallocateMemoryTo (v.capacity * 2)

/-- `Vector::reallocateMemoryIfNeeded()`: grow (by doubling) exactly when
`size + 1 > capacity`. -/
def reallocateMemoryIfNeeded (v : VecState T) : VecState T :=
  if v.size + 1 > v.capacity then v.reallocateMemory else v

/-- The loop of `shiftElementsToRightFrom(beginIndex)`:
`for (i = size; i > beginIndex; i--) elements[i] = elements[i-1]`.
The second argument is the loop counter `i` (initially `size`). -/
def shiftRightLoop (beginIndex : Nat) : List T → Nat → List T
  | el, 0 => el
  | el, i + 1 =>
    if i + 1 > beginIndex then
      shiftRightLoop beginIndex (el.set (i + 1) (el.getD i default)) i
    else el

/-- `Vector::shiftElementsToRightFrom`. -/
def shiftElementsToRightFrom (v : VecState T) (beginIndex : Nat) : VecState T :=
  { v with elements := shiftRightLoop beginIndex v.elements v.size }

/-- The loop of `shiftElementsToLeftUpTo(consumedElementIndex)`:
`for (i = consumedElementIndex; i < size-1; i++) elements[i] = elements[i+1]`.
`bound` is `size - 1`, evaluated before the `size--` of the caller. -/
def shiftLeftLoop (el : List T) (bound : Nat) (i : Nat) : List T :=
  if i < bound then shiftLeftLoop (el.set i (el.getD (i + 1) default)) bound (i + 1)
  else el
  termination_by bound - i

/-- `Vector::shiftElementsToLeftUpTo`. -/
def shiftElementsToLeftUpTo (v : VecState T) (consumedElementIndex : Nat) : VecState T :=
  { v with elements := shiftLeftLoop v.elements (v.size - 1) consumedElementIndex }

/-- `Vector::append`: grow if needed, write at `[size]`, `size++`. -/
def append (v : VecState T) (item : T) : VecState T :=
  let v1 := v.reallocateMemoryIfNeeded
  { v1 with elements := v1.elements.set v1.size item, size := v1.size + 1 }

/-- `Vector::prepend`: grow if needed, shift right from `0`, write at `[0]`,
`size++`. -/
def prepend (v : VecState T) (item : T) : VecState T :=
  let v1 := v.reallocateMemoryIfNeeded
  let v2 := v1.shiftElementsToRightFrom 0
  { v2 with elements := v2.elements.set 0 item, size := v2.size + 1 }

/-- `Vector::ConstIterator::calculateIndex()`:
`currentElement - collection->elements` as a `size_type`. -/
def calculateIndex (v : VecState T) (it : VecIter) : Nat :=
  toSizeT (it.currentElement - v.base)

/-- `Vector::insert(insertPosition, item)`: the index is computed from the
cursor *before* reallocation (the source notes this explicitly), then
grow-if-needed, shift right from the index, write, `size++`. -/
def insert (v : VecState T) (insertPosition : VecIter) (item : T) : VecState T :=
  let insertIndex := v.calculateIndex insertPosition
  let v1 := v.reallocateMemoryIfNeeded
  let v2 := v1.shiftElementsToRightFrom insertIndex
  { v2 with elements := v2.elements.set insertIndex item, size := v2.size + 1 }

/-- `Vector::popFirst`: throws `logic_error` when empty (before any
mutation); otherwise returns `elements[0]`, shifts left, `size--`. -/
def popFirst (v : VecState T) : VecState T × Except CErr T :=
  if v.size = 0 then (v, .error .emptyCollection)
  else
    let value := v.elements.getD 0 default
    let v1 := v.shiftElementsToLeftUpTo 0
    ({ v1 with size := v1.size - 1 }, .ok value)

/-- `Vector::popLast`: throws `logic_error` when empty (before any
mutation); otherwise returns `elements[size-1]`, `size--` (no shift). -/
def popLast (v : VecState T) : VecState T × Except CErr T :=
  if v.size = 0 then (v, .error .emptyCollection)
  else
    let value := v.elements.getD (v.size - 1) default
    ({ v with size := v.size - 1 }, .ok value)

/-- `Vector::erase(position)`: throws `out_of_range` when the collection is
empty, then throws `out_of_range` when the cursor is `END`-tagged
(`throwIfIteratorEqaulsEnd` tests `iterator.isEnd()`); both throws precede
all mutation.  Otherwise shift left over the removed slot and `size--`. -/
def eraseSingle (v : VecState T) (position : VecIter) : VecState T × Except CErr Unit :=
  if v.size = 0 then (v, .error .invalidPosition)
  else if position.tag = .END then (v, .error .invalidPosition)
  else
    let v1 := v.shiftElementsToLeftUpTo (v.calculateIndex position)
    ({ v1 with size := v1.size - 1 }, .ok ())

/-- `Vector::ConstIterator::operator==`: two `END`-tagged cursors are equal
regardless of raw position; otherwise raw positions are compared. -/
def iterEq (a b : VecIter) : Bool :=
  if a.tag = .END ∧ b.tag = .END then true
  else a.currentElement == b.currentElement

/-- The loop of `Vector::erase(firstIncluded, lastExcluded)`:
`for (i = firstIncludeIndex, j = lastExcludedIndex; i < size; i++, j++)
elements[i] = elements[j]`, where `size` is already decremented (`stop`). -/
def eraseRangeLoop (stop : Nat) (el : List T) (i j : Nat) : List T :=
  if i < stop then eraseRangeLoop stop (el.set i (el.getD j default)) (i + 1) (j + 1)
  else el
  termination_by stop - i

/-- `Vector::erase(firstIncluded, lastExcluded)`: no-op when the cursors
compare equal (never an error — the function contains no throw); otherwise
`size -= (lastExcludedIndex - firstIncludeIndex)` (unsigned subtraction) and
the tail block is shifted left over the gap. -/
def eraseRange (v : VecState T) (firstIncluded lastExcluded : VecIter) : VecState T :=
  if iterEq firstIncluded lastExcluded then v
  else
    let firstIncludeIndex := v.calculateIndex firstIncluded
    let lastExcludedIndex := v.calculateIndex lastExcluded
    let newSize := toSizeT ((v.size : Int) - toSizeT ((lastExcludedIndex : Int) - (firstIncludeIndex : Int)))
    { v with
      size := newSize
      elements := eraseRangeLoop newSize v.elements firstIncludeIndex lastExcludedIndex }

/-- `Vector::createConstBegin` / `cbegin()`: a cursor at `&elements[0]`
tagged `BEGIN`. -/
def cbegin (v : VecState T) : VecIter :=
  ⟨v.base, .BEGIN⟩

/-- `Vector::cend()`: on an empty vector, `begin()` re-tagged `END`
(`createConstBeginAsEnd`); otherwise the cached `pastTheEnd` cursor after
`preparePastTheEnd` refreshed its target to `&elements[size]`. -/
def cend (v : VecState T) : VecIter :=
  if v.size = 0 then ⟨v.base, .END⟩
  else ⟨v.base + v.size, .END⟩

/-- `Vector::ConstIterator::operator*`: throws `out_of_range` iff the cursor
is `END`-tagged; otherwise reads the pointed-to slot. -/
def deref (v : VecState T) (it : VecIter) : Except CErr T :=
  if it.tag = .END then .error .invalidPosition
  else .ok (v.elements.getD (v.calculateIndex it) default)

/-- `Vector::ConstIterator::operator++` (prefix): throws `out_of_range` iff
the cursor is `END`-tagged; otherwise advances the pointer, clears a `BEGIN`
tag to `REGULAR`, then sets the `END` tag when
`(size_type)(currentElement - collection->elements) >= collection->getSize()`. -/
def iterInc (v : VecState T) (it : VecIter) : Except CErr VecIter :=
  if it.tag = .END then .error .invalidPosition
  else
    let p := it.currentElement + 1
    let t1 := if it.tag = .BEGIN then .REGULAR else it.tag
    let t2 := if toSizeT (p - v.base) ≥ v.size then VIterTag.END else t1
    .ok ⟨p, t2⟩

/-- `Vector::ConstIterator::operator--` (prefix): throws `out_of_range` iff
the cursor is `BEGIN`-tagged; otherwise moves the pointer back, clears an
`END` tag to `REGULAR`, then sets the `BEGIN` tag when the pointer reaches
`collection->elements`. -/
def iterDec (v : VecState T) (it : VecIter) : Except CErr VecIter :=
  if it.tag = .BEGIN then .error .invalidPosition
  else
    let p := it.currentElement - 1
    let t1 := if it.tag = .END then .REGULAR else it.tag
    let t2 := if p = v.base then VIterTag.BEGIN else t1
    .ok ⟨p, t2⟩

/-- `Vector::ConstIterator::operator+(d)`: a fresh cursor at
`currentElement + d` with the *default* tag `REGULAR` (the constructor's
default `iteratorType` argument), whatever the resulting position. -/
def iterAdd (it : VecIter) (d : Int) : VecIter :=
  ⟨it.currentElement + d, .REGULAR⟩

/-- `Vector::ConstIterator::operator-(d)`: a fresh cursor at
`currentElement - d` tagged `REGULAR`. -/
def iterSub (it : VecIter) (d : Int) : VecIter :=
  ⟨it.currentElement - d, .REGULAR⟩

/-- One caller-side forward traversal step loop,
`for (it = begin(); it != end(); ++it) out.push_back(*it)`, with explicit
fuel.  `it != end()` uses `operator==` against `cend`; the body uses
`operator*` and prefix `operator++`. -/
def traverseFrom (v : VecState T) : Nat → VecIter → Except CErr (List T)
  | 0, _ => .error .outOfFuel
  | fuel + 1, it =>
    if iterEq it v.cend then .ok []
    else do
      let x ← v.deref it
      let it2 ← v.iterInc it
      let rest ← traverseFrom v fuel it2
      .ok (x :: rest)

/-- Forward traversal of the whole vector from `begin()` to `end()` with the
canonically sufficient fuel `size + 1`. -/
def traverse (v : VecState T) : Except CErr (List T) :=
  v.traverseFrom (v.size + 1) v.cbegin

/-- The live element sequence: slots `[0, size)` of the buffer.  This is the
observable contents of the container. -/
def live (v : VecState T) : List T :=
  (List.range v.size).map (fun i => v.elements.getD i default)

/-- `Vector::moveFrom(other)` and the surrounding move constructor / move
assignment: `this` takes `other`'s buffer pointer, size and capacity;
`other.elements = nullptr; other.size = 0` (capacity is *not* reset).
Returns (the new `this`, the new `other`).  The move constructor runs this
on a freshly default-initialized object and the move assignment first frees
its own buffer; in both cases the resulting `this` is determined by `other`
alone, and the resulting `other` keeps its (stale) capacity. -/
def moveFrom (other : VecState T) : VecState T × VecState T :=
  ({ elements := other.elements
     base := other.base
     size := other.size
     capacity := other.capacity
     nextAddr := other.nextAddr },
   { elements := []
     base := 0
     size := 0
     capacity := other.capacity
     nextAddr := other.nextAddr })

/-- The structural invariant of the array container: the buffer really has
`capacity` slots and `size <= capacity` (§3 of the spec). -/
def WF (v : VecState T) : Prop :=
  v.elements.length = v.capacity ∧ v.size ≤ v.capacity

/-- Appending a whole sequence, left to right. -/
def appendAll (v : VecState T) : List T → VecState T
  | [] => v
  | x :: xs => (v.append x).appendAll xs

/-- Prepending a whole sequence, left to right. -/
def prependAll (v : VecState T) : List T → VecState T
  | [] => v
  | x :: xs => (v.prepend x).prependAll xs

end VecState

/-! ## The linked list (`LinkedList.h`) as a pointer machine -/

/-- A `LinkedList<Type>::Node`: `prev`/`next` links (node addresses, `0`
models `nullptr`) and the value payload — `none` for a plain guard `Node`,
`some v` for a `ValueNode` (the enum-free rendering of the
base-class/subclass split: the payload's presence is the discriminant). -/
structure LNode (T : Type) where
  prev : Nat
  next : Nat
  val : Option T

/-- The node heap: contents of every address.  Unallocated addresses hold an
arbitrary default node that no verified run ever reads. -/
structure Store (T : Type) where
  heap : Nat → LNode T
  nextAddr : Nat

/-- The per-object part of a `LinkedList<Type>`: the two permanent guard
addresses and the element count.  The heap is threaded separately so that
several lists (e.g. the two sides of a move) can share it. -/
structure LLMeta where
  firstGuard : Nat
  lastGuard : Nat
  size : Nat

namespace Store

variable {T : Type}

/-- Heap update at one address. -/
def write (m : Store T) (a : Nat) (nd : LNode T) : Store T :=
  { m with heap := fun x => if x = a then nd else m.heap x }

/-- `left->next = right`. -/
def setNext (m : Store T) (a v : Nat) : Store T :=
  m.write a { m.heap a with next := v }

/-- `right->prev = left`. -/
def setPrev (m : Store T) (a v : Nat) : Store T :=
  m.write a { m.heap a with prev := v }

/-- `new Node()` / `new ValueNode(value)`: allocate at the next fresh
address (the constructors initialize `prev = next = nullptr`). -/
def alloc (m : Store T) (v : Option T) : Store T × Nat :=
  (({ m with nextAddr := m.nextAddr + 1 }).write m.nextAddr ⟨0, 0, v⟩, m.nextAddr)

/-- `LinkedList::collapseNodes(left, right)`:
`left->next = right; right->prev = left` (in that order). -/
def collapseNodes (m : Store T) (left right : Nat) : Store T :=
  (m.setNext left right).setPrev right left

/-- `LinkedList::insertBetween(left, right, nodeToInsert)`: the four pointer
writes in source order. -/
def insertBetween (m : Store T) (left right nodeToInsert : Nat) : Store T :=
  (((m.setNext left nodeToInsert).setPrev nodeToInsert left).setNext nodeToInsert right).setPrev right nodeToInsert

end Store

namespace LL

variable {T : Type} [Inhabited T]

/-- `LinkedList()` : allocate the two guards, then
`collapseNodes(firstGuard, lastGuard)`; `size = 0`. -/
def newList (m : Store T) : Store T × LLMeta :=
  let (m1, fg) := m.alloc none
  let (m2, lg) := m1.alloc none
  (m2.collapseNodes fg lg, ⟨fg, lg, 0⟩)

/-- `LinkedList::getFirst()` = `firstGuard->next`. -/
def getFirst (m : Store T) (ll : LLMeta) : Nat :=
  (m.heap ll.firstGuard).next

/-- `LinkedList::getLast()` = `lastGuard->prev`. -/
def getLast (m : Store T) (ll : LLMeta) : Nat :=
  (m.heap ll.lastGuard).prev

/-- `LinkedList::append(item)`: allocate a `ValueNode`, splice it between
`getLast()` and `lastGuard`, `size++`. -/
def append (m : Store T) (ll : LLMeta) (item : T) : Store T × LLMeta :=
  let (m1, nodeToAppend) := m.alloc (some item)
  (m1.insertBetween (getLast m1 ll) ll.lastGuard nodeToAppend,
   { ll with size := ll.size + 1 })

/-- `LinkedList::prepend(item)`: allocate a `ValueNode`, splice it between
`firstGuard` and `getFirst()`, `size++`. -/
def prepend (m : Store T) (ll : LLMeta) (item : T) : Store T × LLMeta :=
  let (m1, nodeToPrepend) := m.alloc (some item)
  (m1.insertBetween ll.firstGuard (getFirst m1 ll) nodeToPrepend,
   { ll with size := ll.size + 1 })

/-- `LinkedList::popFirst()`: throws `logic_error` when empty (before any
mutation); otherwise reads the first value node's value
(`dynamic_cast<ValueNode*>(firstGuard->next)->value`; on a well-formed
non-empty list this node is a `ValueNode`), collapses
`firstGuard` with `first->next`, frees the node and `size--`. -/
def popFirst (m : Store T) (ll : LLMeta) : (Store T × LLMeta) × Except CErr T :=
  if ll.size = 0 then ((m, ll), .error .emptyCollection)
  else
    let first := getFirst m ll
    let result := ((m.heap first).val).getD default
    let m1 := m.collapseNodes ll.firstGuard ((m.heap first).next)
    ((m1, { ll with size := ll.size - 1 }), .ok result)

/-- `LinkedList::popLast()`: symmetric to `popFirst` at the tail. -/
def popLast (m : Store T) (ll : LLMeta) : (Store T × LLMeta) × Except CErr T :=
  if ll.size = 0 then ((m, ll), .error .emptyCollection)
  else
    let last := getLast m ll
    let result := ((m.heap last).val).getD default
    let m1 := m.collapseNodes ((m.heap last).prev) ll.lastGuard
    ((m1, { ll with size := ll.size - 1 }), .ok result)

/-- `LinkedList::end()` / `cend()`: the permanent `endIterator`, whose
`currentNode` is `lastGuard`.  Iterators are their `currentNode` address. -/
def endNode (ll : LLMeta) : Nat :=
  ll.lastGuard

/-- `LinkedList::begin()` / `cbegin()`: the `endIterator` when empty,
otherwise `getFirst()`. -/
def beginNode (m : Store T) (ll : LLMeta) : Nat :=
  if ll.size = 0 then endNode ll else getFirst m ll

/-- `LinkedList::erase(possition)`: throws `out_of_range` when the
collection is empty, then throws `out_of_range` when the cursor equals the
`endIterator` (node comparison against `lastGuard`); both throws precede all
mutation.  Otherwise collapse the neighbours and free the node, `size--`. -/
def eraseSingle (m : Store T) (ll : LLMeta) (possition : Nat) :
    (Store T × LLMeta) × Except CErr Unit :=
  if ll.size = 0 then ((m, ll), .error .invalidPosition)
  else if possition = endNode ll then ((m, ll), .error .invalidPosition)
  else
    let m1 := m.collapseNodes ((m.heap possition).prev) ((m.heap possition).next)
    ((m1, { ll with size := ll.size - 1 }), .ok ())

/-- `LinkedList::ConstIterator::operator*`: throws `out_of_range` iff the
cursor equals `collection->end()`; otherwise reads the value
(`dynamic_cast<ValueNode*>(currentNode)->value`; a guard payload read would
be undefined behaviour, modelled as `default` and never exercised on
well-formed cursors). -/
def deref (m : Store T) (ll : LLMeta) (currentNode : Nat) : Except CErr T :=
  if currentNode = endNode ll then .error .invalidPosition
  else .ok (((m.heap currentNode).val).getD default)

/-- `LinkedList::ConstIterator::operator++` (prefix): throws `out_of_range`
iff the cursor equals `collection->end()`; otherwise steps to `next`. -/
def iterInc (m : Store T) (ll : LLMeta) (currentNode : Nat) : Except CErr Nat :=
  if currentNode = endNode ll then .error .invalidPosition
  else .ok (m.heap currentNode).next

/-- `LinkedList::ConstIterator::operator--` (prefix): throws `out_of_range`
iff the cursor equals `collection->begin()`; otherwise steps to `prev`. -/
def iterDec (m : Store T) (ll : LLMeta) (currentNode : Nat) : Except CErr Nat :=
  if currentNode = beginNode m ll then .error .invalidPosition
  else .ok (m.heap currentNode).prev

/-- `LinkedList::ConstIterator::operator--(int)` (post-decrement), exactly
as written in the source: it saves `old = *this`, then calls `operator++()`
(not `operator--()`), and returns `old`.  The result is the pair
(returned cursor, cursor state after the call). -/
def iterPostDec (m : Store T) (ll : LLMeta) (currentNode : Nat) :
    Except CErr (Nat × Nat) :=
  let old := currentNode
  match iterInc m ll currentNode with
  | .error e => .error e
  | .ok c2 => .ok (old, c2)

/-- `LinkedList::ConstIterator::operator+(d)`: step `next` `d` times, with
no boundary checks. -/
def iterAdd (m : Store T) (currentNode : Nat) : Nat → Nat
  | 0 => currentNode
  | d + 1 => iterAdd m (m.heap currentNode).next d

/-- The loop of `LinkedList::deleteRange(firstIncluded, lastExcluded)`:
`for (it = firstIncluded; it != lastExcluded;)` — read the node, `it++`
(which can throw when crossing `end()`), `delete` it (no observable heap
effect in the model), count it.  Returns `deletedCount`.  The C++ loop is
unbounded; the model runs it on explicit fuel, and every theorem supplies
sufficient fuel. -/
def deleteRangeLoop (m : Store T) (ll : LLMeta) (stopNode : Nat) :
    Nat → Nat → Except CErr Nat
  | 0, _ => .error .outOfFuel
  | fuel + 1, cur =>
    if cur = stopNode then .ok 0
    else
      match iterInc m ll cur with
      | .error e => .error e
      | .ok nxt =>
        match deleteRangeLoop m ll stopNode fuel nxt with
        | .error e => .error e
        | .ok k => .ok (k + 1)

/-- `LinkedList::erase(firstIncluded, lastExcluded)`: collapse
`firstIncluded->prev` with `lastExcluded`, then `deleteRange` frees the
detached nodes (traversing their old `next` links) and subtracts the count
from `size`.  There is no equality pre-check and no throw statement in the
source; supplied with the fuel `size + 1n` the model returns `.ok` on every
well-formed range, including `first = last` on an empty list. -/
def eraseRange (m : Store T) (ll : LLMeta) (firstIncluded lastExcluded : Nat) :
    (Store T × LLMeta) × Except CErr Unit :=
  let left := (m.heap firstIncluded).prev
  let m1 := m.collapseNodes left lastExcluded
  match deleteRangeLoop m1 ll lastExcluded (ll.size + 1) firstIncluded with
  | .error e => ((m1, ll), .error e)
  | .ok deletedCount => ((m1, { ll with size := ll.size - deletedCount }), .ok ())

/-- `LinkedList::collapseList()`: `collapseNodes(firstGuard, lastGuard)` and
`size = 0`. -/
def collapseList (m : Store T) (ll : LLMeta) : Store T × LLMeta :=
  (m.collapseNodes ll.firstGuard ll.lastGuard, { ll with size := 0 })

/-- `LinkedList::deleteList()`: returns immediately when the guards are
directly collapsed; otherwise frees every chained node (no observable heap
effect) and calls `collapseList`. -/
def deleteList (m : Store T) (ll : LLMeta) : Store T × LLMeta :=
  if (m.heap ll.firstGuard).next = ll.lastGuard ∧ (m.heap ll.lastGuard).prev = ll.firstGuard
  then (m, ll)
  else collapseList m ll

/-- `LinkedList::moveFrom(other)`, in source order:
`collapseNodes(firstGuard, other.getFirst())` (reading `other.getFirst()`
first), then `collapseNodes(other.getLast(), lastGuard)` — where
`other.getLast()` is re-read from the heap *after* the first collapse (this
is what makes the empty-`other` case come out right), then `size =
other.size`, then `other.collapseList()`.  Returns the heap and the two
updated metas `(this, other)`. -/
def moveFrom (m : Store T) (this other : LLMeta) : Store T × LLMeta × LLMeta :=
  let f := getFirst m other
  let m1 := m.collapseNodes this.firstGuard f
  let l := getLast m1 other
  let m2 := m1.collapseNodes l this.lastGuard
  let this1 := { this with size := other.size }
  let (m3, other1) := collapseList m2 other
  (m3, this1, other1)

/-- `LinkedList(LinkedList&&)`: default-construct (fresh guards), then
`moveFrom(other)`. -/
def moveCtor (m : Store T) (other : LLMeta) : Store T × LLMeta × LLMeta :=
  let (m1, this) := newList m
  moveFrom m1 this other

/-- `LinkedList& operator=(LinkedList&&)`: `if (!isEmpty()) deleteList();`
then `moveFrom(other)`. -/
def moveAssign (m : Store T) (this other : LLMeta) : Store T × LLMeta × LLMeta :=
  let (m1, this1) := if this.size ≠ 0 then deleteList m this else (m, this)
  moveFrom m1 this1 other

/-- One caller-side forward traversal,
`for (it = begin(); it != end(); ++it) out.push_back(*it)`, with explicit
fuel: the loop guard is node equality against `end()`, the body uses
`operator*` and prefix `operator++`. -/
def traverseFrom (m : Store T) (ll : LLMeta) : Nat → Nat → Except CErr (List T)
  | 0, _ => .error .outOfFuel
  | fuel + 1, cur =>
    if cur = endNode ll then .ok []
    else do
      let x ← deref m ll cur
      let nxt ← iterInc m ll cur
      let rest ← traverseFrom m ll fuel nxt
      .ok (x :: rest)

/-- Forward traversal of the whole list from `begin()` to `end()` with the
canonically sufficient fuel `size + 1`. -/
def traverse (m : Store T) (ll : LLMeta) : Except CErr (List T) :=
  traverseFrom m ll (ll.size + 1) (beginNode m ll)

/-- Appending a whole sequence, left to right. -/
def appendAll (m : Store T) (ll : LLMeta) : List T → Store T × LLMeta
  | [] => (m, ll)
  | x :: xs =>
    let (m1, ll1) := append m ll x
    appendAll m1 ll1 xs

/-- Prepending a whole sequence, left to right. -/
def prependAll (m : Store T) (ll : LLMeta) : List T → Store T × LLMeta
  | [] => (m, ll)
  | x :: xs =>
    let (m1, ll1) := prepend m ll x
    prependAll m1 ll1 xs

end LL

/-! ## The doubly-linked-chain representation invariant -/

/-- `linksTo h a b`: the heap links `a` forward to `b` and `b` backward to
`a` — one well-formed adjacency of the doubly linked chain. -/
def linksTo {T : Type} (h : Nat → LNode T) (a b : Nat) : Bool :=
  (h a).next == b && (h b).prev == a

/-- `chainB h a l b`: starting at `a`, the heap chains through the addresses
of `l` in order and ends at `b`, with every adjacent pair doubly linked. -/
def chainB {T : Type} (h : Nat → LNode T) (a : Nat) : List Nat → Nat → Bool
  | [], b => linksTo h a b
  | c :: l, b => linksTo h a c && chainB h c l b

/-- `fwdB h a l b`: the forward (`next`) links alone chain `a` through `l`
to `b`.  This is what the range-erase deletion loop follows: after
`collapseNodes` has rewired the boundary, the detached nodes keep their old
`next` pointers but `lastExcluded`'s `prev` no longer points into them. -/
def fwdB {T : Type} (h : Nat → LNode T) : Nat → List Nat → Nat → Bool
  | a, [], b => (h a).next == b
  | a, c :: l, b => (h a).next == c && fwdB h c l b

/-- The footprint of a list: its two guards and its value-node addresses. -/
def footprint (ll : LLMeta) (addrs : List Nat) : List Nat :=
  ll.firstGuard :: addrs ++ [ll.lastGuard]

/-- The representation invariant `LLRep m ll addrs xs`: the value nodes of
`ll` sit at the addresses `addrs` (in order), carry the values `xs`, form a
doubly linked chain from `firstGuard` to `lastGuard`, all footprint
addresses are distinct and allocated, and `size` is the element count.
This is the §3 invariant of the spec, stated over the pointer machine. -/
structure LLRep {T : Type} (m : Store T) (ll : LLMeta) (addrs : List Nat) (xs : List T) : Prop where
  chain : chainB m.heap ll.firstGuard addrs ll.lastGuard = true
  vals : addrs.map (fun a => (m.heap a).val) = xs.map some
  nodup : (footprint ll addrs).Nodup
  bound : ∀ a ∈ footprint ll addrs, a < m.nextAddr
  sz : ll.size = xs.length



/-! ## Concrete fixtures, used to instantiate the claims on closed inputs -/

/-- A concrete heap holding two lists: an empty list with guards 1, 2 and a
one-element list (value 10 at node 5) with guards 3, 4. -/
def heap1 : Nat → LNode Nat := fun n =>
  if n = 1 then ⟨0, 2, none⟩
  else if n = 2 then ⟨1, 0, none⟩
  else if n = 3 then ⟨0, 5, none⟩
  else if n = 4 then ⟨5, 0, none⟩
  else if n = 5 then ⟨3, 4, some 10⟩
  else ⟨0, 0, none⟩

/-- The store over `heap1`, six addresses allocated. -/
def store1 : Store Nat := ⟨heap1, 6⟩

/-- The empty list of `store1` (guards 1, 2). -/
def llA : LLMeta := ⟨1, 2, 0⟩

/-- The one-element list of `store1` (guards 3, 4; node 5 holds 10). -/
def llB : LLMeta := ⟨3, 4, 1⟩

/-- A heap holding one two-element list: 1 → 3 (10) → 4 (20) → 2. -/
def heap2 : Nat → LNode Nat := fun n =>
  if n = 1 then ⟨0, 3, none⟩
  else if n = 2 then ⟨4, 0, none⟩
  else if n = 3 then ⟨1, 4, some 10⟩
  else if n = 4 then ⟨3, 2, some 20⟩
  else ⟨0, 0, none⟩

/-- The store over `heap2`, five addresses allocated. -/
def store2 : Store Nat := ⟨heap2, 5⟩

/-- The two-element list of `store2` (guards 1, 2; values 10, 20). -/
def llC : LLMeta := ⟨1, 2, 2⟩

/-- A heap holding a single empty list (guards 1, 2). -/
def heap0 : Nat → LNode Nat := fun n =>
  if n = 1 then ⟨0, 2, none⟩
  else if n = 2 then ⟨1, 0, none⟩
  else ⟨0, 0, none⟩

/-- The store over `heap0`, three addresses allocated. -/
def store0 : Store Nat := ⟨heap0, 3⟩

/-- A full one-slot vector holding 8. -/
def vec1 : VecState Nat := ⟨[8], 0, 1, 1, 0⟩

/-- A full two-slot vector holding 8, 9. -/
def vec2 : VecState Nat := ⟨[8, 9], 0, 2, 2, 0⟩

/-- A full three-slot vector holding 1, 2, 3. -/
def vec3 : VecState Nat := ⟨[1, 2, 3], 0, 3, 3, 0⟩

/-- An empty vector of capacity 1. -/
def vecE : VecState Nat := ⟨[0], 0, 0, 1, 0⟩


/-! ## Generic list-buffer lemmas -/

theorem getD_set_self {α : Type _} (l : List α) (i : Nat) (x d : α) (h : i < l.length) :
    (l.set i x).getD i d = x := by
  rw [List.getD_eq_getElem?_getD, List.getElem?_set_self' (l := l)]
  simp [List.getElem?_eq_getElem h]

theorem getD_set_ne {α : Type _} (l : List α) (i j : Nat) (x d : α) (h : i ≠ j) :
    (l.set i x).getD j d = l.getD j d := by
  rw [List.getD_eq_getElem?_getD, List.getElem?_set_ne h, ← List.getD_eq_getElem?_getD]

theorem getD_replicate {α : Type _} (n : Nat) (a d : α) (i : Nat) :
    (List.replicate n a).getD i d = if i < n then a else d := by
  by_cases h : i < n
  · rw [List.getD_eq_getElem _ _ (by simpa using h)]
    simp [h]
  · rw [List.getD_eq_default _ _ (by simpa using Nat.le_of_not_lt h)]
    simp [h]

theorem range_map_congr {α : Type _} (f g : Nat → α) (n : Nat)
    (h : ∀ i < n, f i = g i) : (List.range n).map f = (List.range n).map g := by
  induction n with
  | zero => simp
  | succ k ih =>
    rw [List.range_succ]
    simp only [List.map_append, List.map_cons, List.map_nil]
    rw [ih (fun i hi => h i (Nat.lt_succ_of_lt hi)), h k (Nat.lt_succ_self k)]

/-! ## Lemmas about the vector's primitive loops -/

namespace VecState

variable {T : Type} [Inhabited T]

theorem copyFirst_length (src dst : List T) (n : Nat) :
    (copyFirst src dst n).length = dst.length := by
  induction n with
  | zero => rfl
  | succ k ih => simpa [copyFirst] using ih

theorem copyFirst_getD (src dst : List T) (n : Nat) (i : Nat) :
    (copyFirst (T := T) src dst n).getD i default =
      if i < n ∧ i < dst.length then src.getD i default else dst.getD i default := by
  induction n with
  | zero => simp [copyFirst]
  | succ k ih =>
    show ((copyFirst src dst k).set k (src.getD k default)).getD i default = _
    by_cases hik : i = k
    · subst hik
      by_cases hlen : i < dst.length
      · rw [getD_set_self _ _ _ _ (by rw [copyFirst_length]; exact hlen)]
        simp [hlen]
      · rw [List.getD_eq_default _ _ (by rw [List.length_set, copyFirst_length]; exact Nat.le_of_not_lt hlen),
           List.getD_eq_default _ _ (Nat.le_of_not_lt hlen)]
        simp [hlen]
    · rw [getD_set_ne _ _ _ _ _ (fun h => hik h.symm), ih]
      rcases Nat.lt_or_ge i k with h | h
      · simp [h, Nat.lt_succ_of_lt h]
      · have : ¬ i < k := Nat.not_lt.mpr h
        have : ¬ i < k + 1 := by omega
        simp [*]

theorem shiftRightLoop_length (b : Nat) (el : List T) (i : Nat) :
    (shiftRightLoop b el i).length = el.length := by
  induction i generalizing el with
  | zero => rfl
  | succ k ih =>
    rw [shiftRightLoop]
    by_cases h : k + 1 > b
    · rw [if_pos h, ih]
      simp
    · rw [if_neg h]

theorem shiftRightLoop_getD (b : Nat) (el : List T) (i : Nat) (hi : i < el.length) :
    ∀ j, (shiftRightLoop b el i).getD j default =
      if b < j ∧ j ≤ i then el.getD (j - 1) default else el.getD j default := by
  induction i generalizing el with
  | zero =>
    intro j
    have hb0 : ¬ (b < j ∧ j ≤ 0) := by omega
    rw [shiftRightLoop, if_neg hb0]
  | succ k ih =>
    intro j
    rw [shiftRightLoop]
    by_cases h : k + 1 > b
    · rw [if_pos h]
      have hlen : k < (el.set (k + 1) (el.getD k default)).length := by
        rw [List.length_set]; omega
      rw [ih (el.set (k + 1) (el.getD k default)) hlen j]
      by_cases hj : b < j ∧ j ≤ k
      · rw [if_pos hj, if_pos (by omega)]
        rw [getD_set_ne _ _ _ _ _ (by omega)]
      · rw [if_neg hj]
        by_cases hj1 : j = k + 1
        · subst hj1
          rw [if_pos (by omega)]
          rw [getD_set_self _ _ _ _ hi]
          simp
        · rw [if_neg (by omega), getD_set_ne _ _ _ _ _ (by omega)]
    · rw [if_neg h]
      have : ¬ (b < j ∧ j ≤ k + 1) ∨ True := Or.inr trivial
      by_cases hj : b < j ∧ j ≤ k + 1
      · omega
      · rw [if_neg hj]

theorem shiftLeftLoop_length (el : List T) (bound i : Nat) :
    (shiftLeftLoop el bound i).length = el.length := by
  rw [shiftLeftLoop]
  by_cases h : i < bound
  · rw [if_pos h, shiftLeftLoop_length]
    simp
  · rw [if_neg h]
  termination_by bound - i

theorem shiftLeftLoop_getD (el : List T) (bound i : Nat) (hb : bound ≤ el.length) :
    ∀ j, (shiftLeftLoop el bound i).getD j default =
      if i ≤ j ∧ j < bound then el.getD (j + 1) default else el.getD j default := by
  intro j
  rw [shiftLeftLoop]
  by_cases h : i < bound
  · rw [if_pos h]
    have hb2 : bound ≤ (el.set i (el.getD (i + 1) default)).length := by simpa using hb
    rw [shiftLeftLoop_getD _ _ _ hb2 j]
    by_cases hj : i + 1 ≤ j ∧ j < bound
    · rw [if_pos hj, if_pos (by omega), getD_set_ne _ _ _ _ _ (by omega)]
    · rw [if_neg hj]
      by_cases hji : j = i
      · subst hji
        rw [if_pos (by omega), getD_set_self _ _ _ _ (by omega)]
      · rw [if_neg (by omega), getD_set_ne _ _ _ _ _ (fun hh => hji hh.symm)]
  · rw [if_neg h, if_neg (by omega)]
  termination_by bound - i

theorem eraseRangeLoop_length (stop : Nat) (el : List T) (i j : Nat) :
    (eraseRangeLoop stop el i j).length = el.length := by
  rw [eraseRangeLoop]
  by_cases h : i < stop
  · rw [if_pos h, eraseRangeLoop_length]
    simp
  · rw [if_neg h]
  termination_by stop - i

theorem eraseRangeLoop_getD (stop : Nat) (el : List T) (i g : Nat) (hg : 1 ≤ g)
    (hstop : stop ≤ el.length) :
    ∀ k, (eraseRangeLoop stop el i (i + g)).getD k default =
      if i ≤ k ∧ k < stop then el.getD (k + g) default else el.getD k default := by
  intro k
  rw [eraseRangeLoop]
  by_cases h : i < stop
  · rw [if_pos h]
    have hstop2 : stop ≤ (el.set i (el.getD (i + g) default)).length := by simpa using hstop
    have : i + g + 1 = (i + 1) + g := by omega
    rw [this, eraseRangeLoop_getD stop _ (i + 1) g hg hstop2 k]
    by_cases hk : i + 1 ≤ k ∧ k < stop
    · rw [if_pos hk, if_pos (by omega), getD_set_ne _ _ _ _ _ (by omega)]
    · rw [if_neg hk]
      by_cases hki : k = i
      · subst hki
        rw [if_pos (by omega), getD_set_self _ _ _ _ (by omega)]
      · rw [if_neg (by omega), getD_set_ne _ _ _ _ _ (fun hh => hki hh.symm)]
  · rw [if_neg h, if_neg (by omega)]
  termination_by stop - i

end VecState

/-! ## `size_t` cast lemmas -/

theorem toSizeT_coe (n : Nat) (h : (n : Int) < sizeTMod) : toSizeT (n : Int) = n := by
  rw [toSizeT, Int.emod_eq_of_lt (by positivity) h]
  simp

theorem toSizeT_shift (b : Int) (n : Nat) (h : (n : Int) < sizeTMod) :
    toSizeT (b + (n : Int) - b) = n := by
  have : b + (n : Int) - b = (n : Int) := by ring
  rw [this, toSizeT_coe n h]

theorem toSizeT_sub_coe (a b : Nat) (hab : b ≤ a) (h : (a : Int) < sizeTMod) :
    toSizeT ((a : Int) - (b : Int)) = a - b := by
  have h1 : (a : Int) - (b : Int) = ((a - b : Nat) : Int) := by
    omega
  rw [h1, toSizeT_coe _ (by omega)]

/-! ## Range/map list helpers -/

theorem range_map_drop_one {α : Type _} (f : Nat → α) (n : Nat) :
    ((List.range n).map f).drop 1 = (List.range (n - 1)).map (fun i => f (i + 1)) := by
  cases n with
  | zero => simp
  | succ m =>
    rw [List.range_succ_eq_map]
    simp only [List.map_cons, List.drop_succ_cons, List.drop_zero, List.map_map]
    rw [Nat.add_sub_cancel]
    exact List.map_congr_left (fun i _ => rfl)

theorem range_map_drop {α : Type _} (f : Nat → α) (n m : Nat) :
    ((List.range n).map f).drop m = (List.range (n - m)).map (fun i => f (i + m)) := by
  induction m generalizing n f with
  | zero => simp
  | succ k ih =>
    have h1 : ((List.range n).map f).drop (k + 1) = (((List.range n).map f).drop 1).drop k := by
      rw [List.drop_drop, Nat.add_comm]
    rw [h1, range_map_drop_one, ih]
    have h2 : n - 1 - k = n - (k + 1) := by omega
    rw [h2]
    exact List.map_congr_left (fun i _ => rfl)

theorem range_map_dropLast {α : Type _} (f : Nat → α) (n : Nat) :
    ((List.range n).map f).dropLast = (List.range (n - 1)).map f := by
  rw [List.dropLast_eq_take, ← List.map_take, List.take_range]
  have h : (((List.range n).map f).length - 1) ⊓ n = n - 1 := by
    simp only [List.length_map, List.length_range]
    exact inf_eq_left.mpr (by omega)
  rw [h]

/-! ## Vector operation lemmas -/

namespace VecState

variable {T : Type} [Inhabited T]

theorem live_getD (v : VecState T) (k : Nat) (hk : k < v.size) :
    (v.live).getD k default = v.elements.getD k default := by
  rw [live, List.getD_eq_getElem _ _ (by simpa using hk), List.getElem_map]
  congr 1
  exact List.getElem_range k _

theorem live_length (v : VecState T) : (v.live).length = v.size := by
  simp [live]

theorem cend_eq (v : VecState T) : v.cend = ⟨v.base + v.size, .END⟩ := by
  rw [cend]
  by_cases h : v.size = 0
  · rw [if_pos h, h]
    simp
  · rw [if_neg h]

/-- Specification of `reallocateMemoryIfNeeded` on a well-formed vector of
positive capacity: well-formedness is preserved, `size` and the live prefix
are unchanged, capacity never shrinks, and afterwards there is room for one
more element. -/
theorem reallocIfNeeded_spec (v : VecState T) (hwf : v.WF) (hcap : 1 ≤ v.capacity) :
    (v.reallocateMemoryIfNeeded).WF ∧
    (v.reallocateMemoryIfNeeded).size = v.size ∧
    v.capacity ≤ (v.reallocateMemoryIfNeeded).capacity ∧
    v.size + 1 ≤ (v.reallocateMemoryIfNeeded).capacity ∧
    (∀ i, i < v.size →
      (v.reallocateMemoryIfNeeded).elements.getD i default = v.elements.getD i default) := by
  obtain ⟨hlen, hsc⟩ := hwf
  rw [reallocateMemoryIfNeeded]
  by_cases h : v.size + 1 > v.capacity
  · rw [if_pos h]
    simp only [reallocateMemory, reallocateMemoryTo]
    refine ⟨⟨?_, ?_⟩, by trivial, by omega, by omega, ?_⟩
    · show (copyFirst _ _ _).length = _
      rw [copyFirst_length]
      simp
    · show v.size ≤ v.capacity * 2
      omega
    · intro i hi
      show (copyFirst _ _ _).getD i default = _
      rw [copyFirst_getD]
      have hrep : i < (List.replicate (v.capacity * 2) (default : T)).length := by
        simp
        omega
      rw [if_pos ⟨hi, hrep⟩]
  · rw [if_neg h]
    exact ⟨⟨hlen, hsc⟩, rfl, le_refl _, by omega, fun i _ => rfl⟩

/-- `append` on a well-formed vector of positive capacity: the live sequence
gains `item` at the back, `size` grows by one, well-formedness and capacity
positivity are preserved and capacity never shrinks. -/
theorem append_spec (v : VecState T) (item : T) (hwf : v.WF) (hcap : 1 ≤ v.capacity) :
    (v.append item).live = v.live ++ [item] ∧
    (v.append item).size = v.size + 1 ∧
    (v.append item).WF ∧
    v.capacity ≤ (v.append item).capacity ∧
    1 ≤ (v.append item).capacity := by
  obtain ⟨hwf1, hsz1, hcap1, hroom1, hpre1⟩ := reallocIfNeeded_spec v hwf hcap
  set v1 := v.reallocateMemoryIfNeeded with hv1
  obtain ⟨hlen1, hsc1⟩ := hwf1
  have happ : v.append item =
      { v1 with elements := v1.elements.set v1.size item, size := v1.size + 1 } := rfl
  rw [happ]
  refine ⟨?_, ?_, ⟨?_, ?_⟩, ?_, ?_⟩
  · show (List.range (v1.size + 1)).map
      (fun i => (v1.elements.set v1.size item).getD i default) = v.live ++ [item]
    rw [List.range_succ, List.map_append, List.map_cons, List.map_nil]
    congr 1
    · rw [hsz1, live]
      apply range_map_congr
      intro i hi
      rw [getD_set_ne _ _ _ _ _ (by omega), hpre1 i hi]
    · rw [getD_set_self _ _ _ _ (by omega)]
  · show v1.size + 1 = v.size + 1
    omega
  · show (v1.elements.set v1.size item).length = v1.capacity
    rw [List.length_set]
    exact hlen1
  · show v1.size + 1 ≤ v1.capacity
    omega
  · show v.capacity ≤ v1.capacity
    omega
  · show 1 ≤ v1.capacity
    omega

/-- `prepend` on a well-formed vector of positive capacity: the live
sequence gains `item` at the front. -/
theorem prepend_spec (v : VecState T) (item : T) (hwf : v.WF) (hcap : 1 ≤ v.capacity) :
    (v.prepend item).live = item :: v.live ∧
    (v.prepend item).size = v.size + 1 ∧
    (v.prepend item).WF ∧
    v.capacity ≤ (v.prepend item).capacity ∧
    1 ≤ (v.prepend item).capacity := by
  obtain ⟨hwf1, hsz1, hcap1, hroom1, hpre1⟩ := reallocIfNeeded_spec v hwf hcap
  set v1 := v.reallocateMemoryIfNeeded with hv1
  obtain ⟨hlen1, hsc1⟩ := hwf1
  have hshift := shiftRightLoop_getD 0 v1.elements v1.size (by omega)
  have hpre : v.prepend item =
      { v1 with
        elements := (shiftRightLoop 0 v1.elements v1.size).set 0 item
        size := v1.size + 1 } := rfl
  rw [hpre]
  refine ⟨?_, ?_, ⟨?_, ?_⟩, ?_, ?_⟩
  · show (List.range (v1.size + 1)).map
      (fun i => ((shiftRightLoop 0 v1.elements v1.size).set 0 item).getD i default) =
      item :: v.live
    rw [List.range_succ_eq_map, List.map_cons, List.map_map]
    congr 1
    · rw [getD_set_self _ _ _ _ (by rw [shiftRightLoop_length]; omega)]
    · rw [hsz1] at hshift
      rw [live, hsz1]
      apply range_map_congr
      intro i hi
      show ((shiftRightLoop 0 v1.elements v.size).set 0 item).getD (i + 1) default = _
      rw [getD_set_ne _ _ _ _ _ (by omega), hshift (i + 1), if_pos (by omega)]
      simpa using hpre1 i hi
  · show v1.size + 1 = v.size + 1
    omega
  · show ((shiftRightLoop 0 v1.elements v1.size).set 0 item).length = v1.capacity
    rw [List.length_set, shiftRightLoop_length]
    exact hlen1
  · show v1.size + 1 ≤ v1.capacity
    omega
  · show v.capacity ≤ v1.capacity
    omega
  · show 1 ≤ v1.capacity
    omega

/-- `popFirst`: fails with `emptyCollection` exactly on the empty vector,
leaving the state untouched; otherwise returns the first live element, the
rest shift down one place, and `size` decreases by one. -/
theorem popFirst_spec (v : VecState T) (hwf : v.WF) :
    (v.size = 0 → v.popFirst = (v, .error .emptyCollection)) ∧
    (v.size ≠ 0 →
      (v.popFirst).2 = .ok (v.live.getD 0 default) ∧
      (v.popFirst).1.live = v.live.drop 1 ∧
      (v.popFirst).1.size = v.size - 1 ∧
      (v.popFirst).1.WF ∧
      (v.popFirst).1.capacity = v.capacity) := by
  obtain ⟨hlen, hsc⟩ := hwf
  constructor
  · intro h0
    rw [popFirst, if_pos h0]
  · intro h0
    rw [popFirst, if_neg h0]
    have hshift := shiftLeftLoop_getD v.elements (v.size - 1) 0 (by omega)
    refine ⟨?_, ?_, rfl, ⟨?_, ?_⟩, rfl⟩
    · show Except.ok (v.elements.getD 0 default) = _
      rw [live_getD v 0 (by omega)]
    · show (List.range (v.size - 1)).map
        (fun i => (shiftLeftLoop v.elements (v.size - 1) 0).getD i default) = v.live.drop 1
      rw [live, range_map_drop_one]
      apply range_map_congr
      intro i hi
      rw [hshift i, if_pos (by omega)]
    · show (shiftLeftLoop v.elements (v.size - 1) 0).length = v.capacity
      rw [shiftLeftLoop_length]
      exact hlen
    · show v.size - 1 ≤ v.capacity
      omega

/-- `popLast`: fails with `emptyCollection` exactly on the empty vector,
leaving the state untouched; otherwise returns the last live element and
only decrements `size`. -/
theorem popLast_spec (v : VecState T) (hwf : v.WF) :
    (v.size = 0 → v.popLast = (v, .error .emptyCollection)) ∧
    (v.size ≠ 0 →
      (v.popLast).2 = .ok (v.live.getD (v.size - 1) default) ∧
      (v.popLast).1.live = v.live.dropLast ∧
      (v.popLast).1.size = v.size - 1 ∧
      (v.popLast).1.WF ∧
      (v.popLast).1.capacity = v.capacity) := by
  obtain ⟨hlen, hsc⟩ := hwf
  constructor
  · intro h0
    rw [popLast, if_pos h0]
  · intro h0
    rw [popLast, if_neg h0]
    refine ⟨?_, ?_, rfl, ⟨hlen, by show v.size - 1 ≤ v.capacity; omega⟩, rfl⟩
    · show Except.ok (v.elements.getD (v.size - 1) default) = _
      rw [live_getD v _ (by omega)]
    · show (List.range (v.size - 1)).map (fun i => v.elements.getD i default) = v.live.dropLast
      rw [live, range_map_dropLast]

/-- `erase(position)` fails — with the out-of-range category — precisely
when the vector is empty or the cursor is `END`-tagged, and a failing call
returns the state unchanged. -/
theorem eraseSingle_fail_iff (v : VecState T) (position : VecIter) :
    ((v.eraseSingle position).2 = .error .invalidPosition ↔
      v.size = 0 ∨ position.tag = .END) ∧
    ((v.eraseSingle position).2 ≠ .ok () → (v.eraseSingle position).1 = v) := by
  rw [eraseSingle]
  by_cases h0 : v.size = 0
  · rw [if_pos h0]
    exact ⟨⟨fun _ => Or.inl h0, fun _ => rfl⟩, fun _ => rfl⟩
  · rw [if_neg h0]
    by_cases hend : position.tag = .END
    · rw [if_pos hend]
      exact ⟨⟨fun _ => Or.inr hend, fun _ => rfl⟩, fun _ => rfl⟩
    · rw [if_neg hend]
      refine ⟨⟨fun h => absurd h (by simp), fun h => ?_⟩, fun h => absurd rfl h⟩
      rcases h with h | h
      · exact absurd h h0
      · exact absurd h hend

/-- Failing `popFirst`/`popLast`/`eraseSingle` calls return the input state:
every throw in the source precedes all mutation. -/
theorem fail_leaves_state (v : VecState T) (position : VecIter) (e : CErr) :
    ((v.popFirst).2 = .error e → (v.popFirst).1 = v) ∧
    ((v.popLast).2 = .error e → (v.popLast).1 = v) ∧
    ((v.eraseSingle position).2 = .error e → (v.eraseSingle position).1 = v) := by
  refine ⟨?_, ?_, ?_⟩
  · rw [popFirst]
    by_cases h0 : v.size = 0
    · rw [if_pos h0]
      intro
      rfl
    · rw [if_neg h0]
      intro h
      exact absurd h (by simp)
  · rw [popLast]
    by_cases h0 : v.size = 0
    · rw [if_pos h0]
      intro
      rfl
    · rw [if_neg h0]
      intro h
      exact absurd h (by simp)
  · rw [eraseSingle]
    by_cases h0 : v.size = 0
    · rw [if_pos h0]
      intro
      rfl
    · rw [if_neg h0]
      by_cases hend : position.tag = .END
      · rw [if_pos hend]
        intro
        rfl
      · rw [if_neg hend]
        intro h
        exact absurd h (by simp)

/-- Range `erase` with cursors that compare equal is the identity: the
source returns before touching anything. -/
theorem eraseRange_noop (v : VecState T) (a b : VecIter) (h : iterEq a b = true) :
    v.eraseRange a b = v := by
  rw [eraseRange, if_pos h]

/-- Range `erase` on a valid non-empty range `[fi, li)` of a well-formed
vector: exactly `li - fi` elements are removed, the prefix below `fi` and
the suffix from `li` survive in order. -/
theorem eraseRange_spec (v : VecState T) (fi li : Nat) (t1 t2 : VIterTag)
    (hwf : v.WF) (ht1 : t1 ≠ .END) (hfl : fi < li) (hli : li ≤ v.size)
    (hmod : (v.size : Int) < sizeTMod) :
    (v.eraseRange ⟨v.base + fi, t1⟩ ⟨v.base + li, t2⟩).size = v.size - (li - fi) ∧
    (v.eraseRange ⟨v.base + fi, t1⟩ ⟨v.base + li, t2⟩).live =
      v.live.take fi ++ v.live.drop li ∧
    (v.eraseRange ⟨v.base + fi, t1⟩ ⟨v.base + li, t2⟩).WF ∧
    (v.eraseRange ⟨v.base + fi, t1⟩ ⟨v.base + li, t2⟩).capacity = v.capacity := by
  obtain ⟨hlen, hsc⟩ := hwf
  have hne : iterEq ⟨v.base + fi, t1⟩ ⟨v.base + li, t2⟩ = false := by
    rw [iterEq]
    rw [if_neg (by intro hh; exact ht1 hh.1)]
    simp only [beq_eq_false_iff_ne, ne_eq]
    intro hh
    have : (fi : Int) = li := by omega
    omega
  have hfi : v.calculateIndex ⟨v.base + fi, t1⟩ = fi :=
    toSizeT_shift v.base fi (by omega)
  have hlix : v.calculateIndex ⟨v.base + li, t2⟩ = li :=
    toSizeT_shift v.base li (by omega)
  have hgap : toSizeT ((li : Int) - (fi : Int)) = li - fi :=
    toSizeT_sub_coe li fi (by omega) (by omega)
  have hnewsize : toSizeT ((v.size : Int) - ((li - fi : Nat) : Int)) = v.size - (li - fi) :=
    toSizeT_sub_coe v.size (li - fi) (by omega) hmod
  have herase : v.eraseRange ⟨v.base + fi, t1⟩ ⟨v.base + li, t2⟩ =
      { v with
        size := v.size - (li - fi)
        elements := eraseRangeLoop (v.size - (li - fi)) v.elements fi li } := by
    rw [eraseRange, hne]
    simp only [Bool.false_eq_true, if_false, hfi, hlix, hgap, hnewsize]
  set g := li - fi with hg
  have hloop := eraseRangeLoop_getD (v.size - g) v.elements fi g (by omega)
    (by omega)
  have hfig : fi + g = li := by omega
  rw [herase]
  refine ⟨rfl, ?_, ⟨?_, ?_⟩, rfl⟩
  · show (List.range (v.size - g)).map
      (fun i => (eraseRangeLoop (v.size - g) v.elements fi li).getD i default) =
      v.live.take fi ++ v.live.drop li
    rw [live, ← List.map_take, List.take_range, inf_eq_left.mpr (by omega),
      range_map_drop]
    rw [hfig] at hloop
    have hrng : List.range (v.size - g) =
        List.range fi ++ (List.range (v.size - li)).map (fun x => fi + x) := by
      rw [← List.range_add]
      congr 1
      omega
    rw [hrng, List.map_append, List.map_map]
    congr 1
    · apply range_map_congr
      intro i hi
      rw [hloop i, if_neg (by omega)]
    · apply range_map_congr
      intro i hi
      show (eraseRangeLoop (v.size - g) v.elements fi li).getD (fi + i) default = _
      rw [hloop (fi + i), if_pos (by omega)]
      congr 1
      omega
  · show (eraseRangeLoop (v.size - g) v.elements fi li).length = v.capacity
    rw [eraseRangeLoop_length]
    exact hlen
  · show v.size - g ≤ v.capacity
    omega

/-- The caller's traversal loop, from position `k` with `r` elements left:
yields the remaining live elements.  The tag hypothesis states the loop
invariant: an `END` tag can only be carried at the one-past-the-end
position. -/
theorem traverseFrom_ok (v : VecState T) (hmod : (v.size : Int) < sizeTMod) :
    ∀ (r k : Nat) (t : VIterTag), k + r = v.size → (t = .END → k = v.size) →
    v.traverseFrom (r + 1) ⟨v.base + (k : Int), t⟩ = .ok (v.live.drop k) := by
  intro r
  induction r with
  | zero =>
    intro k t hk ht
    have hks : k = v.size := by omega
    have heq : iterEq ⟨v.base + (k : Int), t⟩ v.cend = true := by
      rw [cend_eq, iterEq]
      by_cases hT : t = .END
      · rw [if_pos ⟨hT, rfl⟩]
      · rw [if_neg (by intro hh; exact hT hh.1)]
        rw [hks]
        simp
    rw [traverseFrom, heq]
    rw [if_pos rfl]
    rw [List.drop_of_length_le (by rw [live_length]; omega)]
  | succ r ih =>
    intro k t hk ht
    have hklt : k < v.size := by omega
    have hT : t ≠ .END := fun hh => absurd (ht hh) (by omega)
    have heq : iterEq ⟨v.base + (k : Int), t⟩ v.cend = false := by
      rw [cend_eq, iterEq, if_neg (by intro hh; exact hT hh.1)]
      simp only [beq_eq_false_iff_ne, ne_eq]
      intro hh
      have : (k : Int) = v.size := by omega
      omega
    have hcalc : v.calculateIndex ⟨v.base + (k : Int), t⟩ = k :=
      toSizeT_shift v.base k (by omega)
    have hderef : v.deref ⟨v.base + (k : Int), t⟩ = .ok (v.elements.getD k default) := by
      rw [deref, if_neg hT, hcalc]
    have hcast : v.base + (k : Int) + 1 = v.base + ((k + 1 : Nat) : Int) := by
      push_cast
      ring
    have hts : toSizeT (v.base + (k : Int) + 1 - v.base) = k + 1 := by
      rw [hcast]
      exact toSizeT_shift v.base (k + 1) (by omega)
    have hinc : v.iterInc ⟨v.base + (k : Int), t⟩ =
        .ok ⟨v.base + ((k + 1 : Nat) : Int),
          if k + 1 ≥ v.size then .END else if t = .BEGIN then .REGULAR else t⟩ := by
      rw [iterInc, if_neg hT]
      simp only
      rw [hts, hcast]
    have hdrop : v.live.drop k = v.elements.getD k default :: v.live.drop (k + 1) := by
      rw [List.drop_eq_getElem_cons (by rw [live_length]; omega)]
      congr 1
      rw [← List.getD_eq_getElem (d := default) _ (by rw [live_length]; omega)]
      exact live_getD v k hklt
    rw [traverseFrom, heq]
    simp only [Bool.false_eq_true, if_false]
    rw [hderef, hinc]
    simp only [bind, Except.bind]
    rw [ih (k + 1) _ (by omega) ?_]
    · rw [hdrop]
    · intro hend
      by_cases hge : k + 1 ≥ v.size
      · omega
      · rw [if_neg hge] at hend
        by_cases hB : t = .BEGIN
        · rw [if_pos hB] at hend
          exact absurd hend (by simp)
        · rw [if_neg hB] at hend
          exact absurd (ht hend) (by omega)

/-- Full forward traversal of a vector whose size fits in `size_t` yields
exactly the live sequence. -/
theorem traverse_ok (v : VecState T) (hmod : (v.size : Int) < sizeTMod) :
    v.traverse = .ok v.live := by
  have h0 : v.cbegin = ⟨v.base + ((0 : Nat) : Int), .BEGIN⟩ := by
    rw [cbegin]
    simp
  rw [traverse, h0, traverseFrom_ok v hmod v.size 0 .BEGIN (by omega) (by intro hh; cases hh)]
  rw [List.drop_zero]

theorem new_spec (initialCapacity : Nat) (a0 : Int) :
    (new T initialCapacity a0).WF ∧ (new T initialCapacity a0).live = [] ∧
    (new T initialCapacity a0).size = 0 ∧
    (new T initialCapacity a0).capacity = initialCapacity := by
  refine ⟨⟨?_, ?_⟩, ?_, rfl, rfl⟩
  · simp [new]
  · show 0 ≤ initialCapacity
    omega
  · rw [live]
    rfl

theorem appendAll_spec (xs : List T) :
    ∀ (v : VecState T), v.WF → 1 ≤ v.capacity →
    (v.appendAll xs).live = v.live ++ xs ∧
    (v.appendAll xs).size = v.size + xs.length ∧
    (v.appendAll xs).WF ∧
    1 ≤ (v.appendAll xs).capacity ∧
    v.capacity ≤ (v.appendAll xs).capacity := by
  induction xs with
  | nil =>
    intro v hwf hcap
    exact ⟨by simp [appendAll], by simp [appendAll], hwf, hcap, le_refl _⟩
  | cons x xs ih =>
    intro v hwf hcap
    obtain ⟨hlive, hsize, hwf1, hcapm, hcap1⟩ := append_spec v x hwf hcap
    obtain ⟨ihlive, ihsize, ihwf, ihcap, ihcapm⟩ := ih (v.append x) hwf1 hcap1
    refine ⟨?_, ?_, ihwf, ihcap, ?_⟩
    · show ((v.append x).appendAll xs).live = _
      rw [ihlive, hlive]
      simp
    · show ((v.append x).appendAll xs).size = _
      rw [ihsize, hsize]
      simp [List.length_cons]
      omega
    · show v.capacity ≤ ((v.append x).appendAll xs).capacity
      omega

theorem prependAll_spec (xs : List T) :
    ∀ (v : VecState T), v.WF → 1 ≤ v.capacity →
    (v.prependAll xs).live = xs.reverse ++ v.live ∧
    (v.prependAll xs).size = v.size + xs.length ∧
    (v.prependAll xs).WF ∧
    1 ≤ (v.prependAll xs).capacity := by
  induction xs with
  | nil =>
    intro v hwf hcap
    exact ⟨by simp [prependAll], by simp [prependAll], hwf, hcap⟩
  | cons x xs ih =>
    intro v hwf hcap
    obtain ⟨hlive, hsize, hwf1, hcapm, hcap1⟩ := prepend_spec v x hwf hcap
    obtain ⟨ihlive, ihsize, ihwf, ihcap⟩ := ih (v.prepend x) hwf1 hcap1
    refine ⟨?_, ?_, ihwf, ihcap⟩
    · show ((v.prepend x).prependAll xs).live = _
      rw [ihlive, hlive]
      simp
    · show ((v.prepend x).prependAll xs).size = _
      rw [ihsize, hsize]
      simp [List.length_cons]
      omega

end VecState

/-! ## Heap-read lemmas for the pointer machine -/

namespace Store

variable {T : Type}

theorem heap_write (m : Store T) (a : Nat) (nd : LNode T) (x : Nat) :
    ((m.write a nd).heap x) = if x = a then nd else m.heap x := rfl

theorem next_setNext (m : Store T) (a v x : Nat) :
    ((m.setNext a v).heap x).next = if x = a then v else (m.heap x).next := by
  rw [setNext, heap_write]
  by_cases h : x = a
  · rw [if_pos h, if_pos h]
  · rw [if_neg h, if_neg h]

theorem prev_setNext (m : Store T) (a v x : Nat) :
    ((m.setNext a v).heap x).prev = (m.heap x).prev := by
  rw [setNext, heap_write]
  by_cases h : x = a
  · rw [if_pos h, h]
  · rw [if_neg h]

theorem val_setNext (m : Store T) (a v x : Nat) :
    ((m.setNext a v).heap x).val = (m.heap x).val := by
  rw [setNext, heap_write]
  by_cases h : x = a
  · rw [if_pos h, h]
  · rw [if_neg h]

theorem next_setPrev (m : Store T) (a v x : Nat) :
    ((m.setPrev a v).heap x).next = (m.heap x).next := by
  rw [setPrev, heap_write]
  by_cases h : x = a
  · rw [if_pos h, h]
  · rw [if_neg h]

theorem prev_setPrev (m : Store T) (a v x : Nat) :
    ((m.setPrev a v).heap x).prev = if x = a then v else (m.heap x).prev := by
  rw [setPrev, heap_write]
  by_cases h : x = a
  · rw [if_pos h, if_pos h]
  · rw [if_neg h, if_neg h]

theorem val_setPrev (m : Store T) (a v x : Nat) :
    ((m.setPrev a v).heap x).val = (m.heap x).val := by
  rw [setPrev, heap_write]
  by_cases h : x = a
  · rw [if_pos h, h]
  · rw [if_neg h]

theorem nextAddr_setNext (m : Store T) (a v : Nat) :
    (m.setNext a v).nextAddr = m.nextAddr := rfl

theorem nextAddr_setPrev (m : Store T) (a v : Nat) :
    (m.setPrev a v).nextAddr = m.nextAddr := rfl

theorem next_collapse (m : Store T) (l r x : Nat) :
    ((m.collapseNodes l r).heap x).next = if x = l then r else (m.heap x).next := by
  rw [collapseNodes, next_setPrev, next_setNext]

theorem prev_collapse (m : Store T) (l r x : Nat) :
    ((m.collapseNodes l r).heap x).prev = if x = r then l else (m.heap x).prev := by
  rw [collapseNodes, prev_setPrev, prev_setNext]

theorem val_collapse (m : Store T) (l r x : Nat) :
    ((m.collapseNodes l r).heap x).val = (m.heap x).val := by
  rw [collapseNodes, val_setPrev, val_setNext]

theorem nextAddr_collapse (m : Store T) (l r : Nat) :
    (m.collapseNodes l r).nextAddr = m.nextAddr := rfl

theorem next_insertBetween (m : Store T) (l r nd x : Nat) :
    ((m.insertBetween l r nd).heap x).next =
      if x = nd then r else if x = l then nd else (m.heap x).next := by
  rw [insertBetween, next_setPrev, next_setNext, next_setPrev, next_setNext]

theorem prev_insertBetween (m : Store T) (l r nd x : Nat) :
    ((m.insertBetween l r nd).heap x).prev =
      if x = r then nd else if x = nd then l else (m.heap x).prev := by
  rw [insertBetween, prev_setPrev, prev_setNext, prev_setPrev, prev_setNext]

theorem val_insertBetween (m : Store T) (l r nd x : Nat) :
    ((m.insertBetween l r nd).heap x).val = (m.heap x).val := by
  rw [insertBetween, val_setPrev, val_setNext, val_setPrev, val_setNext]

theorem nextAddr_insertBetween (m : Store T) (l r nd : Nat) :
    (m.insertBetween l r nd).nextAddr = m.nextAddr := rfl

theorem heap_alloc (m : Store T) (v : Option T) (x : Nat) :
    ((m.alloc v).1.heap x) = if x = m.nextAddr then ⟨0, 0, v⟩ else m.heap x := rfl

theorem nextAddr_alloc (m : Store T) (v : Option T) :
    (m.alloc v).1.nextAddr = m.nextAddr + 1 := rfl

theorem addr_alloc (m : Store T) (v : Option T) : (m.alloc v).2 = m.nextAddr := rfl

end Store

/-! ## Chain lemmas -/

theorem linksTo_iff {T : Type} (h : Nat → LNode T) (a b : Nat) :
    linksTo h a b = true ↔ (h a).next = b ∧ (h b).prev = a := by
  rw [linksTo, Bool.and_eq_true, beq_iff_eq, beq_iff_eq]

theorem chainB_nil {T : Type} (h : Nat → LNode T) (a b : Nat) :
    chainB h a [] b = linksTo h a b := rfl

theorem chainB_cons {T : Type} (h : Nat → LNode T) (a c b : Nat) (l : List Nat) :
    chainB h a (c :: l) b = (linksTo h a c && chainB h c l b) := rfl

theorem chainB_frame {T : Type} (h1 h2 : Nat → LNode T) (l : List Nat) :
    ∀ (a b : Nat), (h2 a).next = (h1 a).next → (∀ c ∈ l, h2 c = h1 c) →
    (h2 b).prev = (h1 b).prev →
    chainB h2 a l b = chainB h1 a l b := by
  induction l with
  | nil =>
    intro a b ha _ hb
    rw [chainB_nil, chainB_nil, linksTo, linksTo, ha, hb]
  | cons c l ih =>
    intro a b ha hl hb
    have hc : h2 c = h1 c := hl c (by simp)
    rw [chainB_cons, chainB_cons, linksTo, linksTo, ha, hc]
    rw [ih c b (by rw [hc]) (fun x hx => hl x (by simp [hx])) hb]

theorem chainB_split {T : Type} (h : Nat → LNode T) (l1 : List Nat) :
    ∀ (a b c : Nat) (l2 : List Nat),
    chainB h a (l1 ++ c :: l2) b = (chainB h a l1 c && chainB h c l2 b) := by
  induction l1 with
  | nil =>
    intro a b c l2
    rw [List.nil_append, chainB_cons, chainB_nil]
  | cons d l1 ih =>
    intro a b c l2
    rw [List.cons_append, chainB_cons, ih, chainB_cons, Bool.and_assoc]

theorem chainB_snoc {T : Type} (h : Nat → LNode T) (l : List Nat) (a b c : Nat) :
    chainB h a (l ++ [c]) b = (chainB h a l c && linksTo h c b) := by
  rw [chainB_split, chainB_nil]

theorem chain_last_prev {T : Type} (h : Nat → LNode T) (l : List Nat) :
    ∀ (a b : Nat), chainB h a l b = true →
    (h b).prev = (a :: l).getLast (List.cons_ne_nil a l) := by
  induction l with
  | nil =>
    intro a b hc
    rw [chainB_nil, linksTo_iff] at hc
    exact hc.2
  | cons c l ih =>
    intro a b hc
    rw [chainB_cons, Bool.and_eq_true] at hc
    rw [ih c b hc.2]
    rw [List.getLast_cons (List.cons_ne_nil c l)]

theorem chain_first_next {T : Type} (h : Nat → LNode T) (a c b : Nat) (l : List Nat)
    (hc : chainB h a (c :: l) b = true) : (h a).next = c := by
  rw [chainB_cons, Bool.and_eq_true, linksTo_iff] at hc
  exact hc.1.1

theorem chain_nil_next {T : Type} (h : Nat → LNode T) (a b : Nat)
    (hc : chainB h a [] b = true) : (h a).next = b := by
  rw [chainB_nil, linksTo_iff] at hc
  exact hc.1

theorem chain_iterAdd {T : Type} [Inhabited T] (m : Store T) (l : List Nat) :
    ∀ (a b : Nat), chainB m.heap a l b = true →
    LL.iterAdd m a (l.length + 1) = b := by
  induction l with
  | nil =>
    intro a b hc
    show LL.iterAdd m (m.heap a).next 0 = b
    rw [LL.iterAdd, chain_nil_next m.heap a b hc]
  | cons c l ih =>
    intro a b hc
    show LL.iterAdd m (m.heap a).next (l.length + 1) = b
    rw [chain_first_next m.heap a c b l hc]
    exact ih c b (by rw [chainB_cons, Bool.and_eq_true] at hc; exact hc.2)

namespace Store

variable {T : Type}

theorem heap_collapse_other (m : Store T) (l r x : Nat) (hl : x ≠ l) (hr : x ≠ r) :
    ((m.collapseNodes l r).heap x) = m.heap x := by
  rw [collapseNodes, setPrev, heap_write, if_neg hr, setNext, heap_write, if_neg hl]

theorem heap_insertBetween_other (m : Store T) (l r nd x : Nat)
    (hl : x ≠ l) (hr : x ≠ r) (hnd : x ≠ nd) :
    ((m.insertBetween l r nd).heap x) = m.heap x := by
  rw [insertBetween, setPrev, heap_write, if_neg hr, setNext, heap_write, if_neg hnd,
    setPrev, heap_write, if_neg hnd, setNext, heap_write, if_neg hl]

theorem heap_alloc_other (m : Store T) (v : Option T) (x : Nat) (hx : x ≠ m.nextAddr) :
    ((m.alloc v).1.heap x) = m.heap x := by
  rw [heap_alloc, if_neg hx]

end Store

/-! ## Representation-invariant preservation -/

namespace LL

variable {T : Type} [Inhabited T]

/-- Unpacked distinctness and allocation facts from the invariant. -/
theorem rep_facts {m : Store T} {ll : LLMeta} {addrs : List Nat} {xs : List T}
    (R : LLRep m ll addrs xs) :
    ll.firstGuard ∉ addrs ∧ ll.lastGuard ∉ addrs ∧ ll.firstGuard ≠ ll.lastGuard ∧
    addrs.Nodup ∧ ll.firstGuard < m.nextAddr ∧ ll.lastGuard < m.nextAddr ∧
    (∀ a ∈ addrs, a < m.nextAddr) := by
  have h : (ll.firstGuard :: (addrs ++ [ll.lastGuard])).Nodup := R.nodup
  obtain ⟨hfg, h2⟩ := List.nodup_cons.mp h
  obtain ⟨haddr, _, hdisj⟩ := List.nodup_append.mp h2
  rw [List.mem_append] at hfg
  refine ⟨fun hh => hfg (Or.inl hh), fun hh => hdisj hh (by simp), ?_, haddr, ?_, ?_, ?_⟩
  · intro hh
    exact hfg (Or.inr (by simp [hh]))
  · exact R.bound ll.firstGuard (by rw [footprint]; simp)
  · exact R.bound ll.lastGuard (by rw [footprint]; simp)
  · intro a ha
    exact R.bound a (by rw [footprint]; simp [ha])

/-- `LinkedList()` establishes the invariant for the empty list on fresh
guards, touching no previously allocated address. -/
theorem rep_newList (m : Store T) :
    LLRep (newList m).1 (newList m).2 [] [] ∧
    (newList m).2.firstGuard = m.nextAddr ∧
    (newList m).2.lastGuard = m.nextAddr + 1 ∧
    (newList m).1.nextAddr = m.nextAddr + 2 ∧
    (∀ x, x ≠ m.nextAddr → x ≠ m.nextAddr + 1 → (newList m).1.heap x = m.heap x) := by
  refine ⟨?_, rfl, rfl, rfl, ?_⟩
  · constructor
    · rw [chainB_nil, linksTo_iff]
      constructor
      · show (((((m.alloc none).1.alloc none).1).collapseNodes m.nextAddr (m.nextAddr + 1)).heap
          m.nextAddr).next = m.nextAddr + 1
        rw [Store.next_collapse, if_pos rfl]
      · show (((((m.alloc none).1.alloc none).1).collapseNodes m.nextAddr (m.nextAddr + 1)).heap
          (m.nextAddr + 1)).prev = m.nextAddr
        rw [Store.prev_collapse, if_pos rfl]
    · rfl
    · show (m.nextAddr :: [] ++ [m.nextAddr + 1]).Nodup
      simp
    · intro a ha
      rw [footprint] at ha
      simp at ha
      rcases ha with ha | ha
      · rw [ha]
        show m.nextAddr < m.nextAddr + 2
        omega
      · rw [ha]
        show m.nextAddr + 1 < m.nextAddr + 2
        omega
    · rfl
  · intro x hx1 hx2
    show ((((m.alloc none).1.alloc none).1.collapseNodes m.nextAddr (m.nextAddr + 1)).heap x) = _
    rw [Store.heap_collapse_other _ _ _ _ hx1 hx2,
      Store.heap_alloc_other _ _ _ (by rw [Store.nextAddr_alloc]; omega),
      Store.heap_alloc_other _ _ _ hx1]

/-- `append` preserves the invariant: the new node goes to the back. -/
theorem rep_append (m : Store T) (ll : LLMeta) (addrs : List Nat) (xs : List T) (x : T)
    (R : LLRep m ll addrs xs) :
    LLRep (append m ll x).1 (append m ll x).2 (addrs ++ [m.nextAddr]) (xs ++ [x]) ∧
    (append m ll x).1.nextAddr = m.nextAddr + 1 ∧
    (append m ll x).2.firstGuard = ll.firstGuard ∧
    (append m ll x).2.lastGuard = ll.lastGuard ∧
    (append m ll x).2.size = ll.size + 1 := by
  obtain ⟨hfgn, hlgn, hfl, hnodup, hfgb, hlgb, hab⟩ := rep_facts R
  have happ : append m ll x =
      ((m.alloc (some x)).1.insertBetween (getLast (m.alloc (some x)).1 ll) ll.lastGuard
        m.nextAddr,
       { ll with size := ll.size + 1 }) := rfl
  set nd := m.nextAddr with hnd0
  set m1 := (m.alloc (some x)).1 with hm1
  have hh1 : ∀ y, y ≠ nd → m1.heap y = m.heap y := fun y hy =>
    Store.heap_alloc_other m (some x) y hy
  have hlast : getLast m1 ll = (m.heap ll.lastGuard).prev := by
    rw [getLast, hh1 ll.lastGuard (by omega)]
  set w := (m.heap ll.lastGuard).prev with hw
  rw [hlast] at happ
  set m2 := m1.insertBetween w ll.lastGuard nd with hm2
  have hndnext : (m2.heap nd).next = ll.lastGuard := by
    rw [hm2, Store.next_insertBetween, if_pos rfl]
  have hndprev : (m2.heap nd).prev = w := by
    rw [hm2, Store.prev_insertBetween, if_neg (by omega), if_pos rfl]
  have hlgprev : (m2.heap ll.lastGuard).prev = nd := by
    rw [hm2, Store.prev_insertBetween, if_pos rfl]
  have hndval : (m2.heap nd).val = some x := by
    rw [hm2, Store.val_insertBetween, hm1, Store.heap_alloc, if_pos rfl]
  have hvalother : ∀ y, y ≠ nd → (m2.heap y).val = (m.heap y).val := by
    intro y hy
    rw [hm2, Store.val_insertBetween, hh1 y hy]
  have hchain : chainB m2.heap ll.firstGuard (addrs ++ [nd]) ll.lastGuard = true := by
    rw [chainB_snoc, Bool.and_eq_true]
    refine ⟨?_, by rw [linksTo_iff]; exact ⟨hndnext, hlgprev⟩⟩
    rcases List.eq_nil_or_concat addrs with hnil | ⟨l2, w2, hcat⟩
    all_goals (try rw [List.concat_eq_append] at hcat)
    · subst hnil
      have hc := R.chain
      rw [chainB_nil, linksTo_iff] at hc
      have hwfg : w = ll.firstGuard := hw.trans hc.2
      rw [chainB_nil, linksTo_iff]
      constructor
      · rw [hm2, Store.next_insertBetween, if_neg (by omega), if_pos hwfg.symm]
      · rw [hndprev, hwfg]
    · subst hcat
      have hc := R.chain
      rw [chainB_snoc, Bool.and_eq_true] at hc
      obtain ⟨hc1, hc2⟩ := hc
      have hw2 : w = w2 := hw.trans ((linksTo_iff m.heap w2 ll.lastGuard).mp hc2).2
      have hw2mem : w2 ∈ l2 ++ [w2] := by simp
      have hw2b : w2 < nd := hab w2 hw2mem
      have hw2lg : w2 ≠ ll.lastGuard := fun hh => hlgn (hh ▸ hw2mem)
      have hw2fg : w2 ≠ ll.firstGuard := fun hh => hfgn (hh ▸ hw2mem)
      rw [chainB_snoc, Bool.and_eq_true]
      constructor
      · have hframe : chainB m2.heap ll.firstGuard l2 w2 = chainB m.heap ll.firstGuard l2 w2 := by
          apply chainB_frame
          · rw [hm2, Store.next_insertBetween, if_neg (by omega),
              if_neg (by rw [hw2]; exact fun hh => hw2fg hh.symm),
              hh1 ll.firstGuard (by omega)]
          · intro c hcmem
            have hcnd : c ≠ nd := by
              have := hab c (by simp [hcmem])
              omega
            have hclg : c ≠ ll.lastGuard := fun hh => hlgn (hh ▸ (by simp [hcmem]))
            have hcw2 : c ≠ w2 := by
              rw [List.nodup_append] at hnodup
              intro hh
              exact hnodup.2.2 hcmem (by simp [hh])
            rw [hm2, Store.heap_insertBetween_other _ _ _ _ _
                (by rw [hw2]; exact hcw2) hclg hcnd,
              hh1 c hcnd]
          · rw [hm2, Store.prev_insertBetween, if_neg hw2lg, if_neg (by omega),
              hh1 w2 (by omega)]
        rw [hframe]
        exact hc1
      · rw [linksTo_iff]
        constructor
        · rw [hm2, Store.next_insertBetween, if_neg (by omega), if_pos hw2.symm]
        · rw [hndprev, hw2]
  rw [happ]
  refine ⟨?_, ?_, rfl, rfl, rfl⟩
  · constructor
    · exact hchain
    · rw [List.map_append, List.map_append]
      congr 1
      · rw [← R.vals]
        apply List.map_congr_left
        intro c hcm
        exact hvalother c (by have := hab c hcm; omega)
      · simp [hndval]
    · show (ll.firstGuard :: (addrs ++ [nd]) ++ [ll.lastGuard]).Nodup
      have hshape : ll.firstGuard :: (addrs ++ [nd]) ++ [ll.lastGuard] =
          (ll.firstGuard :: addrs) ++ nd :: [ll.lastGuard] := by
        simp
      rw [hshape, List.nodup_middle, List.nodup_cons]
      constructor
      · intro hh
        rw [List.cons_append, List.mem_cons, List.mem_append] at hh
        rcases hh with hh | hh | hh
        · omega
        · have := hab nd hh
          omega
        · simp at hh
          omega
      · have hnn := R.nodup
        rw [footprint] at hnn
        simpa using hnn
    · intro a ha
      rw [footprint] at ha
      show a < m.nextAddr + 1
      have ha2 : a ∈ ll.firstGuard :: (addrs ++ [nd]) ++ [ll.lastGuard] := ha
      rw [List.cons_append, List.mem_cons, List.mem_append, List.mem_append] at ha2
      rcases ha2 with ha | ⟨ha | ha⟩ | ha
      · omega
      · have := hab a ha
        omega
      · simp at ha
        omega
      · simp at ha
        omega
    · show ll.size + 1 = (xs ++ [x]).length
      rw [List.length_append]
      simp [R.sz]
  · rfl

/-- `prepend` preserves the invariant: the new node goes to the front. -/
theorem rep_prepend (m : Store T) (ll : LLMeta) (addrs : List Nat) (xs : List T) (x : T)
    (R : LLRep m ll addrs xs) :
    LLRep (prepend m ll x).1 (prepend m ll x).2 (m.nextAddr :: addrs) (x :: xs) ∧
    (prepend m ll x).1.nextAddr = m.nextAddr + 1 ∧
    (prepend m ll x).2.firstGuard = ll.firstGuard ∧
    (prepend m ll x).2.lastGuard = ll.lastGuard ∧
    (prepend m ll x).2.size = ll.size + 1 := by
  obtain ⟨hfgn, hlgn, hfl, hnodup, hfgb, hlgb, hab⟩ := rep_facts R
  have happ : prepend m ll x =
      ((m.alloc (some x)).1.insertBetween ll.firstGuard (getFirst (m.alloc (some x)).1 ll)
        m.nextAddr,
       { ll with size := ll.size + 1 }) := rfl
  set nd := m.nextAddr with hnd0
  set m1 := (m.alloc (some x)).1 with hm1
  have hh1 : ∀ y, y ≠ nd → m1.heap y = m.heap y := fun y hy =>
    Store.heap_alloc_other m (some x) y hy
  have hfirst : getFirst m1 ll = (m.heap ll.firstGuard).next := by
    rw [getFirst, hh1 ll.firstGuard (by omega)]
  set f := (m.heap ll.firstGuard).next with hf
  rw [hfirst] at happ
  set m2 := m1.insertBetween ll.firstGuard f nd with hm2
  have hfne : f ≠ nd := by
    rcases addrs with _ | ⟨c, rest⟩
    · have := chain_nil_next m.heap _ _ R.chain
      rw [hf, this]
      omega
    · have := chain_first_next m.heap _ _ _ _ R.chain
      rw [hf, this]
      have := hab c (by simp)
      omega
  have hfgnext : (m2.heap ll.firstGuard).next = nd := by
    rw [hm2, Store.next_insertBetween, if_neg (by omega), if_pos rfl]
  have hndprev : (m2.heap nd).prev = ll.firstGuard := by
    rw [hm2, Store.prev_insertBetween, if_neg (fun hh => hfne hh.symm), if_pos rfl]
  have hndnext : (m2.heap nd).next = f := by
    rw [hm2, Store.next_insertBetween, if_pos rfl]
  have hndval : (m2.heap nd).val = some x := by
    rw [hm2, Store.val_insertBetween, hm1, Store.heap_alloc, if_pos rfl]
  have hvalother : ∀ y, y ≠ nd → (m2.heap y).val = (m.heap y).val := by
    intro y hy
    rw [hm2, Store.val_insertBetween, hh1 y hy]
  have hchain : chainB m2.heap ll.firstGuard (nd :: addrs) ll.lastGuard = true := by
    rw [chainB_cons, Bool.and_eq_true]
    refine ⟨by rw [linksTo_iff]; exact ⟨hfgnext, hndprev⟩, ?_⟩
    rcases haddr : addrs with _ | ⟨c, rest⟩
    · rw [haddr] at R
      have hc := R.chain
      rw [chainB_nil, linksTo_iff] at hc
      have hflg : f = ll.lastGuard := hf.trans hc.1
      rw [chainB_nil, linksTo_iff]
      constructor
      · rw [hndnext, hflg]
      · rw [hm2, Store.prev_insertBetween, if_pos hflg.symm]
    · rw [haddr] at R hab hnodup hfgn hlgn
      have hc := R.chain
      rw [chainB_cons, Bool.and_eq_true] at hc
      obtain ⟨hc1, hc2⟩ := hc
      have hfc : f = c := hf.trans ((linksTo_iff m.heap ll.firstGuard c).mp hc1).1
      have hcb : c < nd := hab c (by simp)
      have hclg : c ≠ ll.lastGuard := fun hh => hlgn (by simp [hh])
      have hcfg : c ≠ ll.firstGuard := fun hh => hfgn (by simp [hh])
      rw [chainB_cons, Bool.and_eq_true]
      constructor
      · rw [linksTo_iff]
        constructor
        · rw [hndnext, hfc]
        · rw [hm2, Store.prev_insertBetween, if_pos hfc.symm]
      · have hframe : chainB m2.heap c rest ll.lastGuard = chainB m.heap c rest ll.lastGuard := by
          apply chainB_frame
          · rw [hm2, Store.next_insertBetween, if_neg (by omega), if_neg hcfg, hh1 c (by omega)]
          · intro d hdmem
            have hdnd : d ≠ nd := by
              have := hab d (by simp [hdmem])
              omega
            have hdfg : d ≠ ll.firstGuard := fun hh => hfgn (by simp [hh ▸ hdmem])
            have hdf : d ≠ f := by
              rw [hfc]
              rw [List.nodup_cons] at hnodup
              intro hh
              exact hnodup.1 (hh ▸ hdmem)
            rw [hm2, Store.heap_insertBetween_other _ _ _ _ _ hdfg hdf hdnd, hh1 d hdnd]
          · rw [hm2, Store.prev_insertBetween, if_neg (by rw [hfc]; exact fun hh => hclg hh.symm),
              if_neg (by omega), hh1 ll.lastGuard (by omega)]
        rw [hframe]
        exact hc2
  rw [happ]
  refine ⟨?_, ?_, rfl, rfl, rfl⟩
  · constructor
    · exact hchain
    · rw [List.map_cons, List.map_cons, hndval]
      congr 1
      rw [← R.vals]
      apply List.map_congr_left
      intro c hcm
      exact hvalother c (by have := hab c hcm; omega)
    · show (ll.firstGuard :: (nd :: addrs) ++ [ll.lastGuard]).Nodup
      have hshape : ll.firstGuard :: (nd :: addrs) ++ [ll.lastGuard] =
          [ll.firstGuard] ++ nd :: (addrs ++ [ll.lastGuard]) := by
        simp
      rw [hshape, List.nodup_middle, List.nodup_cons]
      constructor
      · intro hh
        rw [List.singleton_append, List.mem_cons, List.mem_append] at hh
        rcases hh with hh | hh | hh
        · omega
        · have := hab nd hh
          omega
        · simp at hh
          omega
      · have hnn := R.nodup
        rw [footprint] at hnn
        simpa using hnn
    · intro a ha
      rw [footprint] at ha
      show a < m.nextAddr + 1
      have ha2 : a ∈ ll.firstGuard :: (nd :: addrs) ++ [ll.lastGuard] := ha
      rw [List.cons_append, List.mem_cons, List.cons_append, List.mem_cons,
        List.mem_append] at ha2
      rcases ha2 with ha | ha | ⟨ha | ha⟩
      · omega
      · omega
      · have := hab a ha
        omega
      · simp at ha
        omega
    · show ll.size + 1 = (x :: xs).length
      simp [R.sz]
  · rfl

/-- `appendAll` preserves the invariant, extending the chain at the back. -/
theorem rep_appendAll (xs : List T) :
    ∀ (m : Store T) (ll : LLMeta) (addrs : List Nat) (ys : List T),
    LLRep m ll addrs ys →
    ∃ addrs2, LLRep (appendAll m ll xs).1 (appendAll m ll xs).2 (addrs ++ addrs2) (ys ++ xs) ∧
      (appendAll m ll xs).2.firstGuard = ll.firstGuard ∧
      (appendAll m ll xs).2.lastGuard = ll.lastGuard := by
  induction xs with
  | nil =>
    intro m ll addrs ys R
    exact ⟨[], by simpa [appendAll] using R, rfl, rfl⟩
  | cons x xs ih =>
    intro m ll addrs ys R
    obtain ⟨R1, _, hfg, hlg, _⟩ := rep_append m ll addrs ys x R
    obtain ⟨addrs2, R2, hfg2, hlg2⟩ :=
      ih (append m ll x).1 (append m ll x).2 (addrs ++ [m.nextAddr]) (ys ++ [x]) R1
    have hstep : appendAll m ll (x :: xs) =
        appendAll (append m ll x).1 (append m ll x).2 xs := rfl
    rw [hstep]
    refine ⟨m.nextAddr :: addrs2, ?_, by rw [hfg2, hfg], by rw [hlg2, hlg]⟩
    have hsh1 : addrs ++ m.nextAddr :: addrs2 = (addrs ++ [m.nextAddr]) ++ addrs2 := by
      simp
    have hsh2 : ys ++ x :: xs = (ys ++ [x]) ++ xs := by
      simp
    rw [hsh1, hsh2]
    exact R2

/-- `prependAll` preserves the invariant, extending the chain at the front
in reverse order. -/
theorem rep_prependAll (xs : List T) :
    ∀ (m : Store T) (ll : LLMeta) (addrs : List Nat) (ys : List T),
    LLRep m ll addrs ys →
    ∃ addrs2, LLRep (prependAll m ll xs).1 (prependAll m ll xs).2 (addrs2 ++ addrs)
      (xs.reverse ++ ys) ∧
      (prependAll m ll xs).2.firstGuard = ll.firstGuard ∧
      (prependAll m ll xs).2.lastGuard = ll.lastGuard := by
  induction xs with
  | nil =>
    intro m ll addrs ys R
    exact ⟨[], by simpa [prependAll] using R, rfl, rfl⟩
  | cons x xs ih =>
    intro m ll addrs ys R
    obtain ⟨R1, _, hfg, hlg, _⟩ := rep_prepend m ll addrs ys x R
    obtain ⟨addrs2, R2, hfg2, hlg2⟩ :=
      ih (prepend m ll x).1 (prepend m ll x).2 (m.nextAddr :: addrs) (x :: ys) R1
    have hstep : prependAll m ll (x :: xs) =
        prependAll (prepend m ll x).1 (prepend m ll x).2 xs := rfl
    rw [hstep]
    refine ⟨addrs2 ++ [m.nextAddr], ?_, by rw [hfg2, hfg], by rw [hlg2, hlg]⟩
    have hsh1 : (addrs2 ++ [m.nextAddr]) ++ addrs = addrs2 ++ (m.nextAddr :: addrs) := by
      simp
    have hsh2 : (x :: xs).reverse ++ ys = xs.reverse ++ (x :: ys) := by
      simp
    rw [hsh1, hsh2]
    exact R2

/-- The caller's traversal loop along a chain segment collects exactly the
segment's values. -/
theorem traverse_chain (m : Store T) (ll : LLMeta) (addrs : List Nat) :
    ∀ (xs : List T) (a : Nat),
    chainB m.heap a addrs ll.lastGuard = true →
    addrs.map (fun c => (m.heap c).val) = xs.map some →
    ll.lastGuard ∉ addrs →
    traverseFrom m ll (xs.length + 1) ((m.heap a).next) = .ok xs := by
  induction addrs with
  | nil =>
    intro xs a hc hv _
    have hxs : xs = [] := by
      cases xs with
      | nil => rfl
      | cons y ys => cases hv
    subst hxs
    rw [chain_nil_next m.heap _ _ hc, traverseFrom, endNode, if_pos rfl]
  | cons c rest ih =>
    intro xs a hc hv hlg
    obtain ⟨y, ys, hxs⟩ : ∃ y ys, xs = y :: ys := by
      cases xs with
      | nil => cases hv
      | cons y ys => exact ⟨y, ys, rfl⟩
    subst hxs
    rw [List.map_cons, List.map_cons, List.cons_eq_cons] at hv
    obtain ⟨hvy, hvrest⟩ := hv
    have hclg : c ≠ endNode ll := fun hh => hlg (by rw [endNode] at hh; simp [hh])
    rw [chain_first_next m.heap _ _ _ _ hc, List.length_cons, traverseFrom,
      if_neg hclg]
    have hderef : deref m ll c = .ok y := by
      rw [deref, if_neg hclg, hvy]
      rfl
    have hinc : iterInc m ll c = .ok (m.heap c).next := by
      rw [iterInc, if_neg hclg]
    rw [hderef, hinc]
    simp only [bind, Except.bind]
    rw [chainB_cons, Bool.and_eq_true] at hc
    rw [ih ys c hc.2 hvrest (fun hh => hlg (by simp [hh]))]

/-- Full forward traversal of a represented list yields exactly its
element sequence. -/
theorem rep_traverse (m : Store T) (ll : LLMeta) (addrs : List Nat) (xs : List T)
    (R : LLRep m ll addrs xs) : traverse m ll = .ok xs := by
  obtain ⟨hfgn, hlgn, hfl, hnodup, hfgb, hlgb, hab⟩ := rep_facts R
  rw [traverse, beginNode, R.sz]
  by_cases h0 : xs.length = 0
  · rw [if_pos h0]
    have hxs : xs = [] := List.length_eq_zero.mp h0
    subst hxs
    rw [traverseFrom, endNode, if_pos rfl]
  · rw [if_neg h0, getFirst]
    exact traverse_chain m ll addrs xs ll.firstGuard R.chain R.vals hlgn

/-- `popFirst` on a represented list: fails (empty-collection category,
state untouched) exactly on the empty list; otherwise returns the head
value, unlinks the head node and decrements `size`. -/
theorem rep_popFirst (m : Store T) (ll : LLMeta) (addrs : List Nat) (xs : List T)
    (R : LLRep m ll addrs xs) :
    (ll.size = 0 → popFirst m ll = ((m, ll), .error .emptyCollection)) ∧
    (∀ c rest y ys, addrs = c :: rest → xs = y :: ys →
      (popFirst m ll).2 = .ok y ∧
      LLRep (popFirst m ll).1.1 (popFirst m ll).1.2 rest ys ∧
      (popFirst m ll).1.2.size = ll.size - 1 ∧
      (popFirst m ll).1.2.firstGuard = ll.firstGuard ∧
      (popFirst m ll).1.2.lastGuard = ll.lastGuard) := by
  obtain ⟨hfgn, hlgn, hfl, hnodup, hfgb, hlgb, hab⟩ := rep_facts R
  constructor
  · intro h0
    rw [popFirst, if_pos h0]
  · intro c rest y ys hacons hxcons
    subst hacons
    subst hxcons
    have h0 : ll.size ≠ 0 := by
      rw [R.sz]
      simp
    have hcnext : (m.heap ll.firstGuard).next = c :=
      chain_first_next m.heap _ _ _ _ R.chain
    have hcval : (m.heap c).val = some y := by
      have hv := R.vals
      rw [List.map_cons, List.map_cons, List.cons_eq_cons] at hv
      exact hv.1
    have hchain2 : chainB m.heap c rest ll.lastGuard = true := by
      have hc := R.chain
      rw [chainB_cons, Bool.and_eq_true] at hc
      exact hc.2
    have hcb : c < m.nextAddr := hab c (by simp)
    have hclg : c ≠ ll.lastGuard := fun hh => hlgn (by simp [hh])
    have hcfg : c ≠ ll.firstGuard := fun hh => hfgn (by simp [hh])
    have hpop : popFirst m ll =
        ((m.collapseNodes ll.firstGuard ((m.heap (getFirst m ll)).next),
          { ll with size := ll.size - 1 }), .ok (((m.heap (getFirst m ll)).val).getD default)) := by
      rw [popFirst, if_neg h0]
    have hgf : getFirst m ll = c := by
      rw [getFirst, hcnext]
    rw [hgf] at hpop
    rw [hpop]
    set nxt := (m.heap c).next with hnxt
    set m1 := m.collapseNodes ll.firstGuard nxt with hm1
    refine ⟨by rw [hcval]; rfl, ?_, rfl, rfl, rfl⟩
    constructor
    · show chainB m1.heap ll.firstGuard rest ll.lastGuard = true
      rcases hrest : rest with _ | ⟨d, rest2⟩
      · rw [hrest] at hchain2
        have hnl : nxt = ll.lastGuard := hnxt.trans (chain_nil_next m.heap _ _ hchain2)
        rw [chainB_nil, linksTo_iff]
        constructor
        · rw [hm1, Store.next_collapse, if_pos rfl, hnl]
        · rw [hm1, Store.prev_collapse, if_pos hnl.symm]
      · rw [hrest] at hchain2 hnodup hab hfgn hlgn
        have hnd : nxt = d := hnxt.trans (chain_first_next m.heap _ _ _ _ hchain2)
        have hdb : d < m.nextAddr := hab d (by simp)
        have hdlg : d ≠ ll.lastGuard := fun hh => hlgn (by simp [hh])
        rw [chainB_cons, Bool.and_eq_true]
        constructor
        · rw [linksTo_iff]
          constructor
          · rw [hm1, Store.next_collapse, if_pos rfl, hnd]
          · rw [hm1, Store.prev_collapse, if_pos hnd.symm]
        · have hframe : chainB m1.heap d rest2 ll.lastGuard =
              chainB m.heap d rest2 ll.lastGuard := by
            apply chainB_frame
            · rw [hm1, Store.next_collapse, if_neg ?_]
              intro hh
              rw [List.nodup_cons] at hnodup
              exact hfgn (by simp [hh])
            · intro e hemem
              have hefg : e ≠ ll.firstGuard := fun hh => hfgn (by simp [hh ▸ hemem])
              have hed : e ≠ nxt := by
                rw [hnd]
                rw [List.nodup_cons, List.nodup_cons] at hnodup
                intro hh
                exact hnodup.2.1 (hh ▸ hemem)
              exact Store.heap_collapse_other m _ _ e hefg hed
            · rw [hm1, Store.prev_collapse, if_neg ?_]
              rw [hnd]
              exact fun hh => hdlg hh.symm
          rw [hframe]
          rw [chainB_cons, Bool.and_eq_true] at hchain2
          exact hchain2.2
    · show rest.map (fun a => (m1.heap a).val) = ys.map some
      have hv := R.vals
      rw [List.map_cons, List.map_cons, List.cons_eq_cons] at hv
      rw [← hv.2]
      apply List.map_congr_left
      intro e _
      rw [hm1, Store.val_collapse]
    · show (ll.firstGuard :: rest ++ [ll.lastGuard]).Nodup
      have hsub : List.Sublist (ll.firstGuard :: rest ++ [ll.lastGuard])
          (ll.firstGuard :: (c :: rest) ++ [ll.lastGuard]) := by
        apply List.Sublist.cons₂
        exact List.sublist_cons_self c (rest ++ [ll.lastGuard])
      exact List.Nodup.sublist hsub R.nodup
    · intro a ha
      rw [footprint] at ha
      show a < m.nextAddr
      have ha2 : a ∈ ll.firstGuard :: rest ++ [ll.lastGuard] := ha
      rw [List.cons_append, List.mem_cons, List.mem_append] at ha2
      rcases ha2 with ha2 | ha2 | ha2
      · omega
      · have := hab a (by simp [ha2])
        omega
      · simp at ha2
        omega
    · show ll.size - 1 = ys.length
      rw [R.sz]
      simp

/-- `popLast` on a represented list: fails (empty-collection category,
state untouched) exactly on the empty list; otherwise returns the last
value, unlinks the last node and decrements `size`. -/
theorem rep_popLast (m : Store T) (ll : LLMeta) (addrs : List Nat) (xs : List T)
    (R : LLRep m ll addrs xs) :
    (ll.size = 0 → popLast m ll = ((m, ll), .error .emptyCollection)) ∧
    (∀ l2 w2 zs z, addrs = l2 ++ [w2] → xs = zs ++ [z] →
      (popLast m ll).2 = .ok z ∧
      LLRep (popLast m ll).1.1 (popLast m ll).1.2 l2 zs ∧
      (popLast m ll).1.2.size = ll.size - 1 ∧
      (popLast m ll).1.2.firstGuard = ll.firstGuard ∧
      (popLast m ll).1.2.lastGuard = ll.lastGuard) := by
  obtain ⟨hfgn, hlgn, hfl, hnodup, hfgb, hlgb, hab⟩ := rep_facts R
  constructor
  · intro h0
    rw [popLast, if_pos h0]
  · intro l2 w2 zs z hacat hxcat
    subst hacat
    subst hxcat
    have h0 : ll.size ≠ 0 := by
      rw [R.sz]
      simp
    have hlen : l2.length = zs.length := by
      have hv := R.vals
      have := congrArg List.length hv
      simp at this
      omega
    have hc := R.chain
    rw [chainB_snoc, Bool.and_eq_true] at hc
    obtain ⟨hc1, hc2⟩ := hc
    rw [linksTo_iff] at hc2
    have hw2val : (m.heap w2).val = some z := by
      have hv := R.vals
      rw [List.map_append, List.map_append] at hv
      have := List.append_inj hv (by simp [hlen])
      simpa using this.2
    have hvl2 : l2.map (fun a => (m.heap a).val) = zs.map some := by
      have hv := R.vals
      rw [List.map_append, List.map_append] at hv
      have := List.append_inj hv (by simp [hlen])
      exact this.1
    have hw2b : w2 < m.nextAddr := hab w2 (by simp)
    have hw2lg : w2 ≠ ll.lastGuard := fun hh => hlgn (by simp [hh])
    have hw2fg : w2 ≠ ll.firstGuard := fun hh => hfgn (by simp [hh])
    have hgl : getLast m ll = w2 := by
      rw [getLast, hc2.2]
    have hpop : popLast m ll =
        ((m.collapseNodes ((m.heap (getLast m ll)).prev) ll.lastGuard,
          { ll with size := ll.size - 1 }), .ok (((m.heap (getLast m ll)).val).getD default)) := by
      rw [popLast, if_neg h0]
    rw [hgl] at hpop
    rw [hpop]
    set pr := (m.heap w2).prev with hpr
    set m1 := m.collapseNodes pr ll.lastGuard with hm1
    refine ⟨by rw [hw2val]; rfl, ?_, rfl, rfl, rfl⟩
    constructor
    · show chainB m1.heap ll.firstGuard l2 ll.lastGuard = true
      rcases List.eq_nil_or_concat l2 with hnil | ⟨l3, u, hcat⟩
      all_goals (try rw [List.concat_eq_append] at hcat)
      · subst hnil
        have hpf : pr = ll.firstGuard := by
          rw [chainB_nil, linksTo_iff] at hc1
          exact hpr.trans hc1.2
        rw [chainB_nil, linksTo_iff]
        constructor
        · rw [hm1, Store.next_collapse, if_pos hpf.symm]
        · rw [hm1, Store.prev_collapse, if_pos rfl, hpf]
      · subst hcat
        rw [chainB_snoc, Bool.and_eq_true] at hc1
        obtain ⟨hc11, hc12⟩ := hc1
        rw [linksTo_iff] at hc12
        have hpu : pr = u := hpr.trans hc12.2
        have humem : u ∈ (l3 ++ [u]) ++ [w2] := by simp
        have hub : u < m.nextAddr := hab u humem
        have hulg : u ≠ ll.lastGuard := fun hh => hlgn (hh ▸ humem)
        have huw2 : u ≠ w2 := by
          rw [List.nodup_append] at hnodup
          intro hh
          exact hnodup.2.2 (show u ∈ l3 ++ [u] by simp) (show u ∈ [w2] by simp [hh])
        rw [chainB_snoc, Bool.and_eq_true]
        constructor
        · have hframe : chainB m1.heap ll.firstGuard l3 u =
              chainB m.heap ll.firstGuard l3 u := by
            apply chainB_frame
            · have hfgpr : ll.firstGuard ≠ pr := by
                rw [hpu]
                intro hh
                exact hfgn (by rw [hh]; exact humem)
              rw [hm1, Store.next_collapse, if_neg hfgpr]
            · intro e hemem
              have hepr : e ≠ pr := by
                rw [hpu]
                have hnd3 : (l3 ++ [u]).Nodup := by
                  rw [List.nodup_append] at hnodup
                  exact hnodup.1
                rw [List.nodup_append] at hnd3
                intro hh
                exact hnd3.2.2 hemem (by simp [hh])
              have helg : e ≠ ll.lastGuard := fun hh => hlgn (by simp [hh ▸ hemem])
              exact Store.heap_collapse_other m _ _ e hepr helg
            · rw [hm1, Store.prev_collapse, if_neg hulg]
          rw [hframe]
          exact hc11
        · rw [linksTo_iff]
          constructor
          · rw [hm1, Store.next_collapse, if_pos hpu.symm]
          · rw [hm1, Store.prev_collapse, if_pos rfl, hpu]
    · show l2.map (fun a => (m1.heap a).val) = zs.map some
      rw [← hvl2]
      apply List.map_congr_left
      intro e _
      rw [hm1, Store.val_collapse]
    · show (ll.firstGuard :: l2 ++ [ll.lastGuard]).Nodup
      have hsub : List.Sublist (ll.firstGuard :: l2 ++ [ll.lastGuard])
          (ll.firstGuard :: (l2 ++ [w2]) ++ [ll.lastGuard]) := by
        apply List.Sublist.cons₂
        show List.Sublist (l2 ++ [ll.lastGuard]) ((l2 ++ [w2]) ++ [ll.lastGuard])
        rw [List.append_assoc]
        exact List.Sublist.append_left (List.sublist_cons_self w2 [ll.lastGuard]) l2
      exact List.Nodup.sublist hsub R.nodup
    · intro a ha
      rw [footprint] at ha
      show a < m.nextAddr
      have ha2 : a ∈ ll.firstGuard :: l2 ++ [ll.lastGuard] := ha
      rw [List.cons_append, List.mem_cons, List.mem_append] at ha2
      rcases ha2 with ha2 | ha2 | ha2
      · omega
      · have := hab a (by simp [ha2])
        omega
      · simp at ha2
        omega
    · show ll.size - 1 = zs.length
      rw [R.sz, List.length_append]
      simp

/-! ## Forward paths and chain rewiring -/

theorem fwdB_nil {T : Type} (h : Nat → LNode T) (a b : Nat) :
    fwdB h a [] b = ((h a).next == b) := rfl

theorem fwdB_cons {T : Type} (h : Nat → LNode T) (a c b : Nat) (l : List Nat) :
    fwdB h a (c :: l) b = ((h a).next == c && fwdB h c l b) := rfl

theorem chainB_fwdB {T : Type} (h : Nat → LNode T) (l : List Nat) :
    ∀ (a b : Nat), chainB h a l b = true → fwdB h a l b = true := by
  induction l with
  | nil =>
    intro a b hc
    rw [chainB_nil, linksTo_iff] at hc
    rw [fwdB_nil, beq_iff_eq]
    exact hc.1
  | cons c l ih =>
    intro a b hc
    rw [chainB_cons, Bool.and_eq_true] at hc
    rw [fwdB_cons, Bool.and_eq_true, beq_iff_eq]
    exact ⟨((linksTo_iff h a c).mp hc.1).1, ih c b hc.2⟩

theorem fwdB_frame {T : Type} (h1 h2 : Nat → LNode T) (l : List Nat) :
    ∀ (a b : Nat), (∀ c ∈ a :: l, (h2 c).next = (h1 c).next) →
    fwdB h2 a l b = fwdB h1 a l b := by
  induction l with
  | nil =>
    intro a b hf
    rw [fwdB_nil, fwdB_nil, hf a (by simp)]
  | cons c l ih =>
    intro a b hf
    rw [fwdB_cons, fwdB_cons, hf a (List.mem_cons_self a _),
      ih c b (fun d hd => hf d (List.mem_cons_of_mem a hd))]

/-- Rewiring a doubly linked segment: if the old heap chains
`sOld → c :: rest → bOld` and the new heap keeps all interior links but
attaches the head to `sNew` and the last node to `bNew`, the new heap chains
`sNew → c :: rest → bNew`. -/
theorem chainB_rewire {T : Type} (h1 h2 : Nat → LNode T) :
    ∀ (rest : List Nat) (c sOld sNew bNew : Nat) (bOld : Nat),
    chainB h1 sOld (c :: rest) bOld = true →
    (c :: rest).Nodup →
    (h2 sNew).next = c →
    (h2 c).prev = sNew →
    (∀ d ∈ rest, (h2 d).prev = (h1 d).prev) →
    (∀ d ∈ c :: rest, d ≠ (c :: rest).getLast (List.cons_ne_nil c rest) →
      (h2 d).next = (h1 d).next) →
    (h2 ((c :: rest).getLast (List.cons_ne_nil c rest))).next = bNew →
    (h2 bNew).prev = (c :: rest).getLast (List.cons_ne_nil c rest) →
    chainB h2 sNew (c :: rest) bNew = true := by
  intro rest
  induction rest with
  | nil =>
    intro c sOld sNew bNew bOld hch hnd hsn hcp hrp hnx hln hbp
    rw [chainB_cons, Bool.and_eq_true, chainB_nil, linksTo_iff, linksTo_iff]
    have hlast : ([c] : List Nat).getLast (List.cons_ne_nil c []) = c := rfl
    rw [hlast] at hln hbp
    exact ⟨⟨hsn, hcp⟩, hln, hbp⟩
  | cons d rest2 ih =>
    intro c sOld sNew bNew bOld hch hnd hsn hcp hrp hnx hln hbp
    have hgl : (c :: d :: rest2).getLast (List.cons_ne_nil c (d :: rest2)) =
        (d :: rest2).getLast (List.cons_ne_nil d rest2) :=
      List.getLast_cons (List.cons_ne_nil d rest2)
    rw [hgl] at hnx hln hbp
    have hglmem : (d :: rest2).getLast (List.cons_ne_nil d rest2) ∈ d :: rest2 :=
      List.getLast_mem (List.cons_ne_nil d rest2)
    have hcnot : c ∉ d :: rest2 := (List.nodup_cons.mp hnd).1
    rw [chainB_cons, Bool.and_eq_true]
    constructor
    · rw [linksTo_iff]
      exact ⟨hsn, hcp⟩
    · rw [chainB_cons, Bool.and_eq_true] at hch
      obtain ⟨hl1, hch2⟩ := hch
      apply ih d c c bNew bOld hch2 (List.nodup_cons.mp hnd).2
      · have hcnl : c ≠ (d :: rest2).getLast (List.cons_ne_nil d rest2) := by
          intro hh
          exact hcnot (hh ▸ hglmem)
        rw [hnx c (by simp) hcnl]
        exact chain_first_next h1 c d bOld rest2 hch2
      · rw [hrp d (by simp)]
        have hcd : linksTo h1 c d = true := by
          rw [chainB_cons, Bool.and_eq_true] at hch2
          exact hch2.1
        exact ((linksTo_iff h1 c d).mp hcd).2
      · intro e he
        exact hrp e (by simp [he])
      · intro e he hne
        exact hnx e (by simp [he]) hne
      · exact hln
      · exact hbp

/-- One non-terminal step of the deletion loop. -/
theorem deleteRangeLoop_step (m1 : Store T) (ll : LLMeta) (stopNode fuel a : Nat)
    (ha : a ≠ stopNode) (halg : a ≠ ll.lastGuard) :
    deleteRangeLoop m1 ll stopNode (fuel + 1) a =
      match deleteRangeLoop m1 ll stopNode fuel ((m1.heap a).next) with
      | .error e => .error e
      | .ok k => .ok (k + 1) := by
  rw [deleteRangeLoop, if_neg ha, iterInc, endNode, if_neg halg]

/-- The deletion loop of range `erase`: starting at `a` and following the
(detached) forward links through `D` to `stopNode`, it deletes and counts
exactly `D.length + 1` nodes, throwing nothing. -/
theorem deleteRangeLoop_ok (m1 : Store T) (ll : LLMeta) (stopNode : Nat) :
    ∀ (D : List Nat) (a : Nat) (fuel : Nat),
    fwdB m1.heap a D stopNode = true →
    (∀ d ∈ a :: D, d ≠ ll.lastGuard) →
    (∀ d ∈ a :: D, d ≠ stopNode) →
    D.length + 2 ≤ fuel →
    deleteRangeLoop m1 ll stopNode fuel a = .ok (D.length + 1) := by
  intro D
  induction D with
  | nil =>
    intro a fuel hf hlg hstop hfuel
    obtain ⟨fuel1, rfl⟩ : ∃ k, fuel = k + 1 := ⟨fuel - 1, by omega⟩
    obtain ⟨fuel2, rfl⟩ : ∃ k, fuel1 = k + 1 := ⟨fuel1 - 1, by omega⟩
    rw [fwdB_nil, beq_iff_eq] at hf
    rw [deleteRangeLoop_step m1 ll stopNode (fuel2 + 1) a (hstop a (by simp))
      (hlg a (by simp)), hf, deleteRangeLoop, if_pos rfl]
    rfl
  | cons c D2 ih =>
    intro a fuel hf hlg hstop hfuel
    obtain ⟨fuel1, rfl⟩ : ∃ k, fuel = k + 1 := ⟨fuel - 1, by omega⟩
    rw [fwdB_cons, Bool.and_eq_true, beq_iff_eq] at hf
    rw [deleteRangeLoop_step m1 ll stopNode fuel1 a (hstop a (by simp))
      (hlg a (by simp)), hf.1,
      ih c fuel1 hf.2 (fun d hd => hlg d (List.mem_cons_of_mem a hd))
      (fun d hd => hstop d (List.mem_cons_of_mem a hd)) (by simp at hfuel ⊢; omega)]
    rfl

end LL

namespace Store

variable {T : Type}

theorem setNext_id (m : Store T) (l v : Nat) (h : (m.heap l).next = v) :
    m.setNext l v = m := by
  have hnode : { m.heap l with next := v } = m.heap l := by
    rcases hnd : m.heap l with ⟨p, nx, vl⟩
    rw [hnd] at h
    simp at h
    rw [h]
  rw [setNext, hnode, write]
  have hfun : (fun x => if x = l then m.heap l else m.heap x) = m.heap := by
    funext x
    by_cases hx : x = l
    · rw [if_pos hx, hx]
    · rw [if_neg hx]
  rw [hfun]

theorem setPrev_id (m : Store T) (r v : Nat) (h : (m.heap r).prev = v) :
    m.setPrev r v = m := by
  have hnode : { m.heap r with prev := v } = m.heap r := by
    rcases hnd : m.heap r with ⟨p, nx, vl⟩
    rw [hnd] at h
    simp at h
    rw [h]
  rw [setPrev, hnode, write]
  have hfun : (fun x => if x = r then m.heap r else m.heap x) = m.heap := by
    funext x
    by_cases hx : x = r
    · rw [if_pos hx, hx]
    · rw [if_neg hx]
  rw [hfun]

/-- `collapseNodes(left, right)` is the identity when the two nodes are
already mutually linked. -/
theorem collapse_self (m : Store T) (l r : Nat)
    (h1 : (m.heap l).next = r) (h2 : (m.heap r).prev = l) :
    m.collapseNodes l r = m := by
  rw [collapseNodes, setNext_id m l r h1, setPrev_id m r l h2]

end Store

namespace LL

variable {T : Type} [Inhabited T]

/-- Along a chain, the backward pointer of any chained node (or of the final
endpoint) is inverted by the forward pointer of its predecessor. -/
theorem chain_pred (h : Nat → LNode T) (l : List Nat) :
    ∀ (s b : Nat), chainB h s l b = true →
    ∀ a, (a ∈ l ∨ a = b) → (h ((h a).prev)).next = a := by
  induction l with
  | nil =>
    intro s b hc a ha
    rcases ha with ha | ha
    · cases ha
    · subst ha
      rw [chainB_nil, linksTo_iff] at hc
      rw [hc.2, hc.1]
  | cons c l ih =>
    intro s b hc a ha
    rw [chainB_cons, Bool.and_eq_true] at hc
    obtain ⟨hl1, hc2⟩ := hc
    rw [linksTo_iff] at hl1
    rcases ha with ha | ha
    · rcases List.mem_cons.mp ha with ha | ha
      · subst ha
        rw [hl1.2, hl1.1]
      · exact ih c b hc2 a (Or.inl ha)
    · exact ih c b hc2 a (Or.inr ha)

/-- Range `erase` with `firstIncluded = lastExcluded` (any cursor of the
list, `end()` included, on any list — the empty list in particular): the
heap, the guards and the size are untouched, and no error is raised.  The
source has no equality pre-check; the collapse rewrites the two pointers
with their current values and the deletion loop exits immediately. -/
theorem rep_eraseRange_noop (m : Store T) (ll : LLMeta) (addrs : List Nat) (xs : List T)
    (R : LLRep m ll addrs xs) (a : Nat) (ha : a ∈ addrs ∨ a = ll.lastGuard) :
    eraseRange m ll a a = ((m, ll), .ok ()) := by
  have hpred : (m.heap ((m.heap a).prev)).next = a :=
    chain_pred m.heap addrs ll.firstGuard ll.lastGuard R.chain a ha
  have hcol : m.collapseNodes ((m.heap a).prev) a = m :=
    Store.collapse_self m _ a hpred rfl
  rw [eraseRange, hcol, deleteRangeLoop, if_pos rfl]
  rfl

/-- Range `erase` over a decomposed represented list
`P ++ (f :: D2) ++ S`: erasing `[f, lastN)` — where `lastN` is the node
after the deleted block (`end()` when `S = []`) — removes exactly the
`D2.length + 1` nodes of the block (`distance(first, last)`, as the
`operator+` walk confirms), raises nothing, decrements `size` by that count
and re-establishes the invariant on `P ++ S`. -/
theorem rep_eraseRange (m : Store T) (ll : LLMeta) (P : List Nat) (f : Nat) (D2 S : List Nat)
    (xsP xsD xsS : List T) (lastN : Nat)
    (R : LLRep m ll (P ++ f :: (D2 ++ S)) (xsP ++ xsD ++ xsS))
    (hlP : P.length = xsP.length) (hlD : D2.length + 1 = xsD.length)
    (hlast : lastN = S.headD ll.lastGuard) :
    (eraseRange m ll f lastN).2 = .ok () ∧
    LLRep (eraseRange m ll f lastN).1.1 (eraseRange m ll f lastN).1.2 (P ++ S) (xsP ++ xsS) ∧
    (eraseRange m ll f lastN).1.2.size = ll.size - (D2.length + 1) ∧
    (eraseRange m ll f lastN).1.2.firstGuard = ll.firstGuard ∧
    (eraseRange m ll f lastN).1.2.lastGuard = ll.lastGuard ∧
    iterAdd m f (D2.length + 1) = lastN := by
  obtain ⟨hfgA, hlgA, hfl, hAnd, hfgb, hlgb, hab⟩ := rep_facts R
  -- decompose the distinctness facts
  obtain ⟨hPnd, hfDSnd, hdisjP⟩ := List.nodup_append.mp hAnd
  obtain ⟨hfDS, hDSnd⟩ := List.nodup_cons.mp hfDSnd
  obtain ⟨hD2nd, hSnd, hdisjDS⟩ := List.nodup_append.mp hDSnd
  have hfmem : f ∈ P ++ f :: (D2 ++ S) := by simp
  have hffg : f ≠ ll.firstGuard := fun hh => hfgA (hh ▸ hfmem)
  have hflg : f ≠ ll.lastGuard := fun hh => hlgA (hh ▸ hfmem)
  have hfP : f ∉ P := fun hh => hdisjP hh (List.mem_cons_self f (D2 ++ S))
  -- split the chain
  have hcsplit := R.chain
  rw [chainB_split, Bool.and_eq_true] at hcsplit
  obtain ⟨hcP, hcD⟩ := hcsplit
  -- the node before the erased block
  have hpr : (m.heap f).prev = (ll.firstGuard :: P).getLast (List.cons_ne_nil _ _) :=
    chain_last_prev m.heap P ll.firstGuard f hcP
  set pr := (m.heap f).prev with hprdef
  have hprmem : pr ∈ ll.firstGuard :: P := by
    rw [hpr]
    exact List.getLast_mem (List.cons_ne_nil _ _)
  have hprf : pr ≠ f := by
    rcases List.mem_cons.mp hprmem with hh | hh
    · rw [hh]
      exact fun h2 => hffg h2.symm
    · intro h2
      exact hfP (h2 ▸ hh)
  have hprlg : pr ≠ ll.lastGuard := by
    rcases List.mem_cons.mp hprmem with hh | hh
    · rw [hh]
      exact hfl
    · intro h2
      exact hlgA (h2 ▸ (by simp [hh] : pr ∈ P ++ f :: (D2 ++ S)))
  have hprD2 : pr ∉ D2 := by
    intro hh
    rcases List.mem_cons.mp hprmem with h2 | h2
    · exact hfgA (h2 ▸ (by simp [hh] : pr ∈ P ++ f :: (D2 ++ S)))
    · exact hdisjP h2 (by simp [hh])
  have hprS : pr ∉ S := by
    intro hh
    rcases List.mem_cons.mp hprmem with h2 | h2
    · exact hfgA (h2 ▸ (by simp [hh] : pr ∈ P ++ f :: (D2 ++ S)))
    · exact (hdisjP h2 (by simp [hh] : pr ∈ f :: (D2 ++ S))).elim
  -- the end of the block and the restricted chain to it
  have hlastNmem : lastN = ll.lastGuard ∨ lastN ∈ S := by
    rcases S with _ | ⟨s, S2⟩
    · exact Or.inl hlast
    · exact Or.inr (by rw [hlast]; simp)
  have hlastNpr : lastN ≠ pr := by
    rcases hlastNmem with hh | hh
    · rw [hh]
      exact fun h2 => hprlg h2.symm
    · intro h2
      exact hprS (h2 ▸ hh)
  have hcD2 : chainB m.heap f D2 lastN = true := by
    rcases S with _ | ⟨s, S2⟩
    · rw [List.append_nil] at hcD
      rw [hlast]
      exact hcD
    · rw [chainB_split, Bool.and_eq_true] at hcD
      rw [hlast]
      exact hcD.1
  set m1 := m.collapseNodes pr lastN with hm1
  -- heap-field bookkeeping after the collapse
  have hnext1 : ∀ x, x ≠ pr → (m1.heap x).next = (m.heap x).next := by
    intro x hx
    rw [hm1, Store.next_collapse, if_neg hx]
  have hprev1 : ∀ x, x ≠ lastN → (m1.heap x).prev = (m.heap x).prev := by
    intro x hx
    rw [hm1, Store.prev_collapse, if_neg hx]
  have hother1 : ∀ x, x ≠ pr → x ≠ lastN → m1.heap x = m.heap x := by
    intro x hx1 hx2
    exact Store.heap_collapse_other m pr lastN x hx1 hx2
  have hprnext : (m1.heap pr).next = lastN := by
    rw [hm1, Store.next_collapse, if_pos rfl]
  have hlastprev : (m1.heap lastN).prev = pr := by
    rw [hm1, Store.prev_collapse, if_pos rfl]
  -- the deletion loop runs over the detached block
  have hfwd : fwdB m1.heap f D2 lastN = true := by
    rw [fwdB_frame m.heap m1.heap D2 f lastN ?_]
    · exact chainB_fwdB m.heap D2 f lastN hcD2
    · intro c hc
      apply hnext1
      rcases List.mem_cons.mp hc with hh | hh
      · rw [hh]
        exact fun h2 => hprf h2.symm
      · intro h2
        exact hprD2 (h2 ▸ hh)
  have hD2lg : ∀ d ∈ f :: D2, d ≠ ll.lastGuard := by
    intro d hd
    rcases List.mem_cons.mp hd with hh | hh
    · rw [hh]
      exact hflg
    · intro h2
      exact hlgA (h2 ▸ (by simp [hh] : d ∈ P ++ f :: (D2 ++ S)))
  have hD2stop : ∀ d ∈ f :: D2, d ≠ lastN := by
    intro d hd
    rcases hlastNmem with hl | hl
    · rw [hl]
      exact hD2lg d hd
    · intro h2
      rcases List.mem_cons.mp hd with hh | hh
      · exact hfDS (hh ▸ h2 ▸ (by simp [hl] : lastN ∈ D2 ++ S))
      · exact (hdisjDS hh (h2 ▸ hl)).elim
  have hsz : ll.size = xsP.length + xsD.length + xsS.length := by
    rw [R.sz]
    simp
    omega
  have hloop : deleteRangeLoop m1 ll lastN (ll.size + 1) f = .ok (D2.length + 1) := by
    apply deleteRangeLoop_ok m1 ll lastN D2 f (ll.size + 1) hfwd hD2lg hD2stop
    omega
  have herase : eraseRange m ll f lastN =
      ((m1, { ll with size := ll.size - (D2.length + 1) }), .ok ()) := by
    rw [eraseRange]
    rw [hloop]
  rw [herase]
  refine ⟨rfl, ?_, rfl, rfl, rfl, chain_iterAdd m D2 f lastN hcD2⟩
  -- the value maps of the surviving segments
  have hvals := R.vals
  have hshapeA : P ++ f :: (D2 ++ S) = P ++ (f :: D2) ++ S := by simp
  rw [hshapeA, List.map_append, List.map_append, List.map_append, List.map_append] at hvals
  have hv1 := List.append_inj hvals (by simp [hlP, hlD])
  have hv2 := List.append_inj hv1.1 (by simp [hlP])
  have hvP : P.map (fun a => (m.heap a).val) = xsP.map some := hv2.1
  have hvS : S.map (fun a => (m.heap a).val) = xsS.map some := hv1.2
  constructor
  · -- the rewired chain
    show chainB m1.heap ll.firstGuard (P ++ S) ll.lastGuard = true
    have hSchain : ∀ s S2, S = s :: S2 → chainB m1.heap s S2 ll.lastGuard = true := by
      intro s S2 hS
      subst hS
      rw [chainB_split, Bool.and_eq_true] at hcD
      have hslast : s = lastN := by rw [hlast]; rfl
      rw [chainB_frame m.heap m1.heap S2 s ll.lastGuard ?_ ?_ ?_]
      · exact hcD.2
      · apply hnext1
        intro hh
        exact hprS (by rw [← hh]; simp)
      · intro c hc
        apply hother1
        · intro hh
          exact hprS (by rw [← hh]; simp [hc])
        · intro hh
          rw [List.nodup_cons] at hSnd
          apply hSnd.1
          have hsc : s = c := hslast.trans hh.symm
          rw [hsc]
          exact hc
      · apply hprev1
        intro hh
        exact hlgA (by rw [hh, ← hslast]; simp)
    rcases hPc : P with _ | ⟨c, P2⟩
    · -- no survivors before the block: firstGuard links directly on
      rw [hPc] at hpr
      have hprfg : pr = ll.firstGuard := by
        rw [hpr]
        rfl
      rcases hSc : S with _ | ⟨s, S2⟩
      · have hlglast : lastN = ll.lastGuard := by rw [hlast, hSc]; rfl
        rw [List.nil_append, chainB_nil, linksTo_iff]
        constructor
        · rw [← hprfg, hprnext, hlglast]
        · rw [← hprfg, ← hlglast, hlastprev]
      · have hslast : s = lastN := by rw [hlast, hSc]; rfl
        rw [List.nil_append, chainB_cons, Bool.and_eq_true]
        refine ⟨?_, hSchain s S2 hSc⟩
        rw [linksTo_iff]
        constructor
        · rw [← hprfg, hprnext, hslast]
        · rw [hslast, hlastprev, hprfg]
    · -- survivors before the block: rewire the tail of `P`
      rw [hPc] at hcP hpr hprmem hPnd hdisjP hfP hfgA hlgA
      have hcPm1 : chainB m1.heap ll.firstGuard (c :: P2) lastN = true := by
        have hgl2 : (ll.firstGuard :: c :: P2).getLast (List.cons_ne_nil _ _) =
            (c :: P2).getLast (List.cons_ne_nil _ _) :=
          List.getLast_cons (List.cons_ne_nil _ _)
        have hprP : pr = (c :: P2).getLast (List.cons_ne_nil _ _) := by
          rw [hpr, hgl2]
        have hglmem : (c :: P2).getLast (List.cons_ne_nil _ _) ∈ c :: P2 :=
          List.getLast_mem (List.cons_ne_nil _ _)
        apply chainB_rewire m.heap m1.heap P2 c ll.firstGuard ll.firstGuard lastN f hcP hPnd
        · rw [hnext1 ll.firstGuard (fun hh => hfgA (by
            rw [hh, hprP]
            exact List.mem_append.mpr (Or.inl hglmem)))]
          exact chain_first_next m.heap ll.firstGuard c f P2 hcP
        · have hclast : c ≠ lastN := by
            intro hh
            rcases hlastNmem with hl | hl
            · exact hlgA (by rw [← hl, ← hh]; exact List.mem_append.mpr (Or.inl (by simp)))
            · exact hdisjP (by simp : c ∈ c :: P2) (by rw [hh]; simp [hl])
          rw [hprev1 c hclast]
          rw [chainB_cons, Bool.and_eq_true] at hcP
          exact ((linksTo_iff m.heap ll.firstGuard c).mp hcP.1).2
        · intro d hd
          apply hprev1
          intro hh
          rcases hlastNmem with hl | hl
          · exact hlgA (by rw [← hl, ← hh]; exact List.mem_append.mpr (Or.inl (by simp [hd])))
          · exact hdisjP (by simp [hd] : d ∈ c :: P2) (by rw [hh]; simp [hl])
        · intro d hd hdl
          apply hnext1
          rw [hprP]
          exact hdl
        · rw [← hprP, hprnext]
        · rw [hlastprev, hprP]
      rcases hSc : S with _ | ⟨s, S2⟩
      · have hlglast : lastN = ll.lastGuard := by rw [hlast, hSc]; rfl
        rw [List.append_nil, ← hlglast]
        exact hcPm1
      · have hslast : s = lastN := by rw [hlast, hSc]; rfl
        rw [chainB_split, Bool.and_eq_true]
        constructor
        · rw [hslast]
          exact hcPm1
        · exact hSchain s S2 hSc
  · -- values survive untouched
    show (P ++ S).map (fun a => (m1.heap a).val) = (xsP ++ xsS).map some
    rw [List.map_append, List.map_append, ← hvP, ← hvS]
    congr 1
    · apply List.map_congr_left
      intro e _
      rw [hm1, Store.val_collapse]
    · apply List.map_congr_left
      intro e _
      rw [hm1, Store.val_collapse]
  · -- distinctness survives by sublisting
    show (ll.firstGuard :: (P ++ S) ++ [ll.lastGuard]).Nodup
    have hsub : List.Sublist (ll.firstGuard :: (P ++ S) ++ [ll.lastGuard])
        (ll.firstGuard :: (P ++ f :: (D2 ++ S)) ++ [ll.lastGuard]) := by
      apply List.Sublist.cons₂
      show List.Sublist ((P ++ S) ++ [ll.lastGuard]) ((P ++ f :: (D2 ++ S)) ++ [ll.lastGuard])
      apply List.Sublist.append_right
      apply List.Sublist.append_left
      apply List.Sublist.trans (List.sublist_append_right D2 S)
      exact List.sublist_cons_self f (D2 ++ S)
    exact List.Nodup.sublist hsub R.nodup
  · -- allocation bounds survive
    intro a ha
    rw [footprint] at ha
    show a < m.nextAddr
    have ha2 : a ∈ ll.firstGuard :: (P ++ S) ++ [ll.lastGuard] := ha
    rw [List.cons_append, List.mem_cons, List.mem_append, List.mem_append] at ha2
    rcases ha2 with ha2 | ⟨ha2 | ha2⟩ | ha2
    · omega
    · exact hab a (by simp [ha2])
    · exact hab a (by simp [ha2])
    · simp at ha2
      omega
  · -- the size bookkeeping
    show ll.size - (D2.length + 1) = (xsP ++ xsS).length
    rw [List.length_append]
    omega

/-- `erase(pos)` on the list fails — with the out-of-range category — iff
the list is empty or the cursor is the `endIterator` (its node is
`lastGuard`); a failing call (also of the pops) leaves heap and meta
untouched. -/
theorem eraseSingle_fail_spec (m : Store T) (ll : LLMeta) (possition : Nat) :
    ((eraseSingle m ll possition).2 = .error .invalidPosition ↔
      ll.size = 0 ∨ possition = ll.lastGuard) ∧
    (∀ e, (eraseSingle m ll possition).2 = .error e →
      (eraseSingle m ll possition).1 = (m, ll)) ∧
    (∀ e, (popFirst m ll).2 = .error e → (popFirst m ll).1 = (m, ll)) ∧
    (∀ e, (popLast m ll).2 = .error e → (popLast m ll).1 = (m, ll)) := by
  refine ⟨?_, ?_, ?_, ?_⟩
  · rw [eraseSingle]
    by_cases h0 : ll.size = 0
    · rw [if_pos h0]
      exact ⟨fun _ => Or.inl h0, fun _ => rfl⟩
    · rw [if_neg h0]
      by_cases hend : possition = endNode ll
      · rw [if_pos hend]
        exact ⟨fun _ => Or.inr hend, fun _ => rfl⟩
      · rw [if_neg hend]
        refine ⟨fun h => absurd h (by simp), fun h => ?_⟩
        rcases h with h | h
        · exact absurd h h0
        · exact absurd h hend
  · intro e
    rw [eraseSingle]
    by_cases h0 : ll.size = 0
    · rw [if_pos h0]
      intro
      rfl
    · rw [if_neg h0]
      by_cases hend : possition = endNode ll
      · rw [if_pos hend]
        intro
        rfl
      · rw [if_neg hend]
        intro h
        exact absurd h (by simp)
  · intro e
    rw [popFirst]
    by_cases h0 : ll.size = 0
    · rw [if_pos h0]
      intro
      rfl
    · rw [if_neg h0]
      intro h
      exact absurd h (by simp)
  · intro e
    rw [popLast]
    by_cases h0 : ll.size = 0
    · rw [if_pos h0]
      intro
      rfl
    · rw [if_neg h0]
      intro h
      exact absurd h (by simp)

/-- The invariant only looks at the footprint: it survives any heap change
outside it and any allocator advance. -/
theorem rep_frame (m m2 : Store T) (ll : LLMeta) (addrs : List Nat) (xs : List T)
    (R : LLRep m ll addrs xs)
    (hheap : ∀ x ∈ footprint ll addrs, m2.heap x = m.heap x)
    (hna : m.nextAddr ≤ m2.nextAddr) :
    LLRep m2 ll addrs xs := by
  constructor
  · rw [chainB_frame m.heap m2.heap addrs ll.firstGuard ll.lastGuard ?_ ?_ ?_]
    · exact R.chain
    · rw [hheap ll.firstGuard (by rw [footprint]; simp)]
    · intro c hc
      exact hheap c (by rw [footprint]; simp [hc])
    · rw [hheap ll.lastGuard (by rw [footprint]; simp)]
  · rw [← R.vals]
    apply List.map_congr_left
    intro c hc
    rw [hheap c (by rw [footprint]; simp [hc])]
  · exact R.nodup
  · intro x hx
    have := R.bound x hx
    omega
  · exact R.sz

/-- A represented *empty* list satisfies the destructor's early-exit test:
`deleteList` frees no value node and leaves everything untouched. -/
theorem rep_empty_deleteList (m : Store T) (ll : LLMeta)
    (R : LLRep m ll [] []) : deleteList m ll = (m, ll) := by
  have hc := R.chain
  rw [chainB_nil, linksTo_iff] at hc
  rw [deleteList, if_pos hc]

/-- `moveFrom` transfers the whole chain of `other` into `this` by guard
splicing and collapses `other` to the valid empty state.  `this`'s fresh (or
just-emptied) guards must be distinct from `other`'s footprint — which holds
for both the move constructor and move assignment. -/
theorem rep_moveFrom (m : Store T) (a b : LLMeta) (addrsB : List Nat) (xs : List T)
    (Rb : LLRep m b addrsB xs)
    (hafg : a.firstGuard ∉ footprint b addrsB)
    (halg : a.lastGuard ∉ footprint b addrsB)
    (hfl : a.firstGuard ≠ a.lastGuard)
    (hafgb : a.firstGuard < m.nextAddr) (halgb : a.lastGuard < m.nextAddr) :
    LLRep (moveFrom m a b).1 (moveFrom m a b).2.1 addrsB xs ∧
    LLRep (moveFrom m a b).1 (moveFrom m a b).2.2 [] [] ∧
    (moveFrom m a b).2.1 = { a with size := b.size } ∧
    (moveFrom m a b).2.2 = { b with size := 0 } := by
  obtain ⟨hfgn, hlgn, hflb, hnodup, hfgb, hlgb, hab⟩ := rep_facts Rb
  have hafg2 : a.firstGuard ≠ b.firstGuard := by
    intro hh
    exact hafg (by rw [footprint, hh]; simp)
  have hafg3 : a.firstGuard ≠ b.lastGuard := by
    intro hh
    exact hafg (by rw [footprint, hh]; simp)
  have halg2 : a.lastGuard ≠ b.firstGuard := by
    intro hh
    exact halg (by rw [footprint, hh]; simp)
  have halg3 : a.lastGuard ≠ b.lastGuard := by
    intro hh
    exact halg (by rw [footprint, hh]; simp)
  have hafgaddr : a.firstGuard ∉ addrsB := by
    intro hh
    exact hafg (by rw [footprint]; simp [hh])
  have halgaddr : a.lastGuard ∉ addrsB := by
    intro hh
    exact halg (by rw [footprint]; simp [hh])
  rcases haddr : addrsB with _ | ⟨c, rest⟩
  · -- moving an empty list
    rw [haddr] at Rb
    have hxs : xs = [] := by
      have hv := Rb.vals
      cases xs with
      | nil => rfl
      | cons z zs => cases hv
    subst hxs
    have hf : getFirst m b = b.lastGuard := by
      rw [getFirst]
      have hc := Rb.chain
      rw [chainB_nil, linksTo_iff] at hc
      exact hc.1
    have hmv : moveFrom m a b =
        (((m.collapseNodes a.firstGuard b.lastGuard).collapseNodes
            ((((m.collapseNodes a.firstGuard b.lastGuard)).heap b.lastGuard).prev)
            a.lastGuard).collapseNodes b.firstGuard b.lastGuard,
         { a with size := b.size }, { b with size := 0 }) := by
      rw [moveFrom, hf]
      rfl
    have hl : (((m.collapseNodes a.firstGuard b.lastGuard)).heap b.lastGuard).prev =
        a.firstGuard := by
      rw [Store.prev_collapse, if_pos rfl]
    rw [hl] at hmv
    set m3 := ((m.collapseNodes a.firstGuard b.lastGuard).collapseNodes
      a.firstGuard a.lastGuard).collapseNodes b.firstGuard b.lastGuard with hm3
    rw [hmv]
    have hafgnext : (m3.heap a.firstGuard).next = a.lastGuard := by
      rw [hm3, Store.next_collapse, if_neg hafg2, Store.next_collapse, if_pos rfl]
    have halgprev : (m3.heap a.lastGuard).prev = a.firstGuard := by
      rw [hm3, Store.prev_collapse, if_neg halg3, Store.prev_collapse, if_pos rfl]
    have hbfgnext : (m3.heap b.firstGuard).next = b.lastGuard := by
      rw [hm3, Store.next_collapse, if_pos rfl]
    have hblgprev : (m3.heap b.lastGuard).prev = b.firstGuard := by
      rw [hm3, Store.prev_collapse, if_pos rfl]
    refine ⟨?_, ?_, rfl, rfl⟩
    · constructor
      · rw [chainB_nil, linksTo_iff]
        exact ⟨hafgnext, halgprev⟩
      · rfl
      · show (a.firstGuard :: [] ++ [a.lastGuard]).Nodup
        simp [hfl]
      · intro x hx
        rw [footprint] at hx
        show x < m.nextAddr
        simp at hx
        rcases hx with hx | hx
        · omega
        · omega
      · exact Rb.sz
    · constructor
      · rw [chainB_nil, linksTo_iff]
        exact ⟨hbfgnext, hblgprev⟩
      · rfl
      · show (b.firstGuard :: [] ++ [b.lastGuard]).Nodup
        simp [hflb]
      · intro x hx
        rw [footprint] at hx
        show x < m.nextAddr
        simp at hx
        rcases hx with hx | hx
        · omega
        · omega
      · rfl
  · -- moving a non-empty list
    rw [haddr] at Rb hfgn hlgn hnodup hab hafgaddr halgaddr
    have hf : getFirst m b = c := by
      rw [getFirst]
      exact chain_first_next m.heap b.firstGuard c b.lastGuard rest Rb.chain
    have hcb : c < m.nextAddr := hab c (by simp)
    have hcafg : c ≠ a.firstGuard := fun hh => hafgaddr (by simp [← hh])
    have hgl2 : (b.firstGuard :: c :: rest).getLast (List.cons_ne_nil _ _) =
        (c :: rest).getLast (List.cons_ne_nil _ _) :=
      List.getLast_cons (List.cons_ne_nil _ _)
    set w := (c :: rest).getLast (List.cons_ne_nil c rest) with hwdef
    have hwmem : w ∈ c :: rest := List.getLast_mem (List.cons_ne_nil c rest)
    have hwb : w < m.nextAddr := hab w hwmem
    have hwblg : w ≠ b.lastGuard := fun hh => hlgn (hh ▸ hwmem)
    have hwbfg : w ≠ b.firstGuard := fun hh => hfgn (hh ▸ hwmem)
    have hwafg : w ≠ a.firstGuard := fun hh => hafgaddr (hh ▸ hwmem)
    have hwalg : w ≠ a.lastGuard := fun hh => halgaddr (hh ▸ hwmem)
    have hprevb : (m.heap b.lastGuard).prev = w := by
      rw [hwdef]
      rw [← List.getLast_cons (List.cons_ne_nil c rest)]
      exact chain_last_prev m.heap (c :: rest) b.firstGuard b.lastGuard Rb.chain
    have hl : getLast (m.collapseNodes a.firstGuard c) b = w := by
      rw [getLast, Store.prev_collapse, if_neg (fun hh => hlgn (by rw [hh]; simp)), hprevb]
    have hmv : moveFrom m a b =
        (((m.collapseNodes a.firstGuard c).collapseNodes w a.lastGuard).collapseNodes
            b.firstGuard b.lastGuard,
         { a with size := b.size }, { b with size := 0 }) := by
      have hmv0 : moveFrom m a b =
          (((m.collapseNodes a.firstGuard (getFirst m b)).collapseNodes
              (getLast (m.collapseNodes a.firstGuard (getFirst m b)) b) a.lastGuard).collapseNodes
              b.firstGuard b.lastGuard,
           { a with size := b.size }, { b with size := 0 }) := rfl
      rw [hmv0, hf, hl]
    set m3 := ((m.collapseNodes a.firstGuard c).collapseNodes w a.lastGuard).collapseNodes
      b.firstGuard b.lastGuard with hm3
    rw [hmv]
    have hnext3 : ∀ x, x ≠ a.firstGuard → x ≠ w → x ≠ b.firstGuard →
        (m3.heap x).next = (m.heap x).next := by
      intro x h1 h2 h3
      rw [hm3, Store.next_collapse, if_neg h3, Store.next_collapse, if_neg h2,
        Store.next_collapse, if_neg h1]
    have hprev3 : ∀ x, x ≠ c → x ≠ a.lastGuard → x ≠ b.lastGuard →
        (m3.heap x).prev = (m.heap x).prev := by
      intro x h1 h2 h3
      rw [hm3, Store.prev_collapse, if_neg h3, Store.prev_collapse, if_neg h2,
        Store.prev_collapse, if_neg h1]
    have hval3 : ∀ x, (m3.heap x).val = (m.heap x).val := by
      intro x
      rw [hm3, Store.val_collapse, Store.val_collapse, Store.val_collapse]
    have hafgnext : (m3.heap a.firstGuard).next = c := by
      rw [hm3, Store.next_collapse, if_neg hafg2, Store.next_collapse, if_neg hwafg.symm,
        Store.next_collapse, if_pos rfl]
    have hcprev : (m3.heap c).prev = a.firstGuard := by
      rw [hm3, Store.prev_collapse, if_neg (fun hh => hlgn (by rw [← hh]; simp)),
        Store.prev_collapse, if_neg (fun hh => halgaddr (by rw [← hh]; simp)),
        Store.prev_collapse, if_pos rfl]
    have hwnext : (m3.heap w).next = a.lastGuard := by
      rw [hm3, Store.next_collapse, if_neg hwbfg, Store.next_collapse, if_pos rfl]
    have halgprev : (m3.heap a.lastGuard).prev = w := by
      rw [hm3, Store.prev_collapse, if_neg halg3, Store.prev_collapse, if_pos rfl]
    have hbfgnext : (m3.heap b.firstGuard).next = b.lastGuard := by
      rw [hm3, Store.next_collapse, if_pos rfl]
    have hblgprev : (m3.heap b.lastGuard).prev = b.firstGuard := by
      rw [hm3, Store.prev_collapse, if_pos rfl]
    refine ⟨?_, ?_, rfl, rfl⟩
    · constructor
      · show chainB m3.heap a.firstGuard (c :: rest) a.lastGuard = true
        apply chainB_rewire m.heap m3.heap rest c b.firstGuard a.firstGuard a.lastGuard
          b.lastGuard Rb.chain hnodup hafgnext hcprev
        · intro d hd
          apply hprev3
          · intro hh
            rw [List.nodup_cons] at hnodup
            exact hnodup.1 (hh ▸ hd)
          · intro hh
            exact halgaddr (by simp [← hh, hd])
          · intro hh
            exact hlgn (by simp [← hh, hd])
        · intro d hd hdl
          apply hnext3
          · intro hh
            exact hafgaddr (hh ▸ hd)
          · rw [hwdef]
            exact hdl
          · intro hh
            exact hfgn (hh ▸ hd)
        · rw [← hwdef, hwnext]
        · rw [halgprev, hwdef]
      · show (c :: rest).map (fun x => (m3.heap x).val) = xs.map some
        rw [← Rb.vals]
        apply List.map_congr_left
        intro e _
        rw [hval3]
      · show (a.firstGuard :: (c :: rest) ++ [a.lastGuard]).Nodup
        have hshape : a.firstGuard :: (c :: rest) ++ [a.lastGuard] =
            [a.firstGuard] ++ (c :: rest) ++ [a.lastGuard] := by simp
        rw [hshape]
        rw [List.nodup_append, List.nodup_append]
        refine ⟨⟨by simp, hnodup, ?_⟩, by simp [hfl], ?_⟩
        · intro x hx hx2
          simp at hx
          exact hafgaddr (hx ▸ hx2)
        · intro x hx hx2
          simp at hx2
          rw [List.mem_append] at hx
          rcases hx with hx | hx
          · simp at hx
            exact hfl (hx.symm.trans hx2)
          · exact halgaddr (hx2 ▸ hx)
      · intro x hx
        rw [footprint] at hx
        show x < m.nextAddr
        have hx2 : x ∈ a.firstGuard :: (c :: rest) ++ [a.lastGuard] := hx
        rw [List.cons_append, List.mem_cons, List.mem_append] at hx2
        rcases hx2 with hx2 | hx2 | hx2
        · omega
        · have := hab x hx2
          omega
        · simp at hx2
          omega
      · show b.size = xs.length
        exact Rb.sz
    · constructor
      · rw [chainB_nil, linksTo_iff]
        exact ⟨hbfgnext, hblgprev⟩
      · rfl
      · show (b.firstGuard :: [] ++ [b.lastGuard]).Nodup
        simp [hflb]
      · intro x hx
        rw [footprint] at hx
        show x < m.nextAddr
        simp at hx
        rcases hx with hx | hx
        · omega
        · omega
      · rfl

/-- Move construction: `LinkedList(LinkedList&&)` default-constructs fresh
guards and then calls `moveFrom`; the fresh guards are outside the source's
footprint because every represented address is below the allocation bound. -/
theorem rep_moveCtor (m : Store T) (b : LLMeta) (addrsB : List Nat) (xs : List T)
    (Rb : LLRep m b addrsB xs) :
    LLRep (moveCtor m b).1 (moveCtor m b).2.1 addrsB xs ∧
    LLRep (moveCtor m b).1 (moveCtor m b).2.2 [] [] ∧
    (moveCtor m b).2.1.size = xs.length ∧
    (moveCtor m b).2.2 = { b with size := 0 } := by
  obtain ⟨_, hfg, hlg, hna, hother⟩ := rep_newList m
  have Rb1 : LLRep (newList m).1 b addrsB xs := by
    apply rep_frame m (newList m).1 b addrsB xs Rb
    · intro x hx
      have hxb := Rb.bound x hx
      exact hother x (by omega) (by omega)
    · rw [hna]
      omega
  have hfgn2 : (newList m).2.firstGuard ∉ footprint b addrsB := by
    intro hx
    have hb := Rb.bound _ hx
    rw [hfg] at hb
    omega
  have hlgn2 : (newList m).2.lastGuard ∉ footprint b addrsB := by
    intro hx
    have hb := Rb.bound _ hx
    rw [hlg] at hb
    omega
  have hfl2 : (newList m).2.firstGuard ≠ (newList m).2.lastGuard := by
    rw [hfg, hlg]
    omega
  obtain ⟨A1, A2, A3, A4⟩ := rep_moveFrom (newList m).1 (newList m).2 b addrsB xs Rb1
    hfgn2 hlgn2 hfl2 (by rw [hfg, hna]; omega) (by rw [hlg, hna]; omega)
  have hmc : moveCtor m b = moveFrom (newList m).1 (newList m).2 b := rfl
  rw [hmc]
  refine ⟨A1, A2, ?_, A4⟩
  rw [A3]
  exact Rb.sz

/-- Move assignment: `operator=(LinkedList&&)` first empties `this` (via
`deleteList` when non-empty, which is the collapse of its guards) and then
calls `moveFrom`; provided the two lists' footprints do not share guard
addresses, the target ends up holding exactly the source's elements and the
source is left valid and empty. -/
theorem rep_moveAssign (m : Store T) (a b : LLMeta) (addrsA addrsB : List Nat)
    (ys xs : List T)
    (Ra : LLRep m a addrsA ys) (Rb : LLRep m b addrsB xs)
    (hafg : a.firstGuard ∉ footprint b addrsB)
    (halg : a.lastGuard ∉ footprint b addrsB) :
    LLRep (moveAssign m a b).1 (moveAssign m a b).2.1 addrsB xs ∧
    LLRep (moveAssign m a b).1 (moveAssign m a b).2.2 [] [] ∧
    (moveAssign m a b).2.1.size = xs.length ∧
    (moveAssign m a b).2.2 = { b with size := 0 } := by
  obtain ⟨hafgn, halgn, hfl, hnodupA, hafgb, halgb, habA⟩ := rep_facts Ra
  by_cases h0 : a.size = 0
  · have hma : moveAssign m a b = moveFrom m a b := by
      rw [moveAssign, if_neg (fun hh => hh h0)]
    obtain ⟨A1, A2, A3, A4⟩ := rep_moveFrom m a b addrsB xs Rb hafg halg hfl hafgb halgb
    rw [hma]
    refine ⟨A1, A2, ?_, A4⟩
    rw [A3]
    exact Rb.sz
  · have hlen : addrsA.length = ys.length := by
      have hv := congrArg List.length Ra.vals
      simpa using hv
    have hne : addrsA ≠ [] := by
      intro hh
      apply h0
      rw [Ra.sz, ← hlen, hh]
      rfl
    obtain ⟨c, restA, hA⟩ := List.exists_cons_of_ne_nil hne
    subst hA
    have hfn : (m.heap a.firstGuard).next = c :=
      chain_first_next m.heap a.firstGuard c a.lastGuard restA Ra.chain
    have hcne : ¬((m.heap a.firstGuard).next = a.lastGuard ∧
        (m.heap a.lastGuard).prev = a.firstGuard) := by
      intro hh
      rw [hfn] at hh
      exact halgn (by rw [← hh.1]; simp)
    have hdel : deleteList m a =
        (m.collapseNodes a.firstGuard a.lastGuard, { a with size := 0 }) := by
      rw [deleteList, if_neg hcne, collapseList]
    have hma : moveAssign m a b =
        moveFrom (m.collapseNodes a.firstGuard a.lastGuard) { a with size := 0 } b := by
      rw [moveAssign, if_pos h0, hdel]
    have Rb1 : LLRep (m.collapseNodes a.firstGuard a.lastGuard) b addrsB xs := by
      apply rep_frame m (m.collapseNodes a.firstGuard a.lastGuard) b addrsB xs Rb
      · intro x hx
        exact Store.heap_collapse_other m _ _ x (fun hh => hafg (hh ▸ hx))
          (fun hh => halg (hh ▸ hx))
      · rw [Store.nextAddr_collapse]
    obtain ⟨A1, A2, A3, A4⟩ := rep_moveFrom (m.collapseNodes a.firstGuard a.lastGuard)
      { a with size := 0 } b addrsB xs Rb1 hafg halg hfl
      (by rw [Store.nextAddr_collapse]; exact hafgb)
      (by rw [Store.nextAddr_collapse]; exact halgb)
    rw [hma]
    refine ⟨A1, A2, ?_, A4⟩
    rw [A3]
    exact Rb.sz

end LL

/-! ## The claims -/

section Claims

variable {T : Type} [Inhabited T]

/-- C1: after a move construction or move assignment `a = move(b)` of either
container, `a` holds exactly the elements `b` held, in order, and `b` is
left empty, structurally valid and safely destructible.  For the array,
`moveFrom` hands the whole buffer to `a` (so `a`'s live sequence and
well-formedness are `b`'s) and nulls `b`'s buffer pointer with `size = 0`,
so `b`'s destructor frees nothing and `size ≤ capacity` still holds.  For
the linked list, both the move constructor and the move assignment
re-splice `b`'s chain between `a`'s guards and collapse `b` to the
represented empty state, so traversing the new `a` yields `b`'s old
sequence and `b`'s destructor's early-exit test fires (`deleteList` is the
identity on it). -/
theorem c1_move_transfers_and_empties_source
    (v : VecState T) (hv : v.WF)
    (m : Store T) (a b : LLMeta) (addrsA addrsB : List Nat) (ys xs : List T)
    (Ra : LLRep m a addrsA ys) (Rb : LLRep m b addrsB xs)
    (hafg : a.firstGuard ∉ footprint b addrsB)
    (halg : a.lastGuard ∉ footprint b addrsB) :
    ((v.moveFrom).1.live = v.live ∧ (v.moveFrom).1.WF ∧
     (v.moveFrom).2.size = 0 ∧ (v.moveFrom).2.base = 0 ∧
     (v.moveFrom).2.size ≤ (v.moveFrom).2.capacity) ∧
    (LL.traverse (LL.moveCtor m b).1 (LL.moveCtor m b).2.1 = .ok xs ∧
     (LL.moveCtor m b).2.1.size = xs.length ∧
     LLRep (LL.moveCtor m b).1 (LL.moveCtor m b).2.2 [] [] ∧
     LL.deleteList (LL.moveCtor m b).1 (LL.moveCtor m b).2.2 =
       ((LL.moveCtor m b).1, (LL.moveCtor m b).2.2)) ∧
    (LL.traverse (LL.moveAssign m a b).1 (LL.moveAssign m a b).2.1 = .ok xs ∧
     (LL.moveAssign m a b).2.1.size = xs.length ∧
     LLRep (LL.moveAssign m a b).1 (LL.moveAssign m a b).2.2 [] [] ∧
     LL.deleteList (LL.moveAssign m a b).1 (LL.moveAssign m a b).2.2 =
       ((LL.moveAssign m a b).1, (LL.moveAssign m a b).2.2)) := by
  obtain ⟨A1, A2, A3, A4⟩ := LL.rep_moveCtor m b addrsB xs Rb
  obtain ⟨B1, B2, B3, B4⟩ := LL.rep_moveAssign m a b addrsA addrsB ys xs Ra Rb hafg halg
  refine ⟨⟨rfl, hv, rfl, rfl, Nat.zero_le _⟩, ?_, ?_⟩
  · exact ⟨LL.rep_traverse _ _ _ _ A1, A3, A2, LL.rep_empty_deleteList _ _ A2⟩
  · exact ⟨LL.rep_traverse _ _ _ _ B1, B3, B2, LL.rep_empty_deleteList _ _ B2⟩

/-- C1 at a closed input: moving the one-element list between guards 3, 4
into a fresh list (move construction) and into the empty list between
guards 1, 2 (move assignment) transfers the single value 10 and leaves the
source empty; the array move keeps the target's contents and empties the
source. -/
theorem c1_move_transfers_and_empties_source_witness :
    LL.traverse (LL.moveCtor store1 llB).1 (LL.moveCtor store1 llB).2.1 = .ok [10] ∧
    (LL.moveCtor store1 llB).2.2.size = 0 ∧
    LL.traverse (LL.moveAssign store1 llA llB).1
      (LL.moveAssign store1 llA llB).2.1 = .ok [10] ∧
    (VecState.moveFrom vec1).1.live = [8] ∧
    (VecState.moveFrom vec1).2.size = 0 := by
  obtain ⟨hv, hc, ha⟩ := c1_move_transfers_and_empties_source vec1 ⟨by decide, by decide⟩
    store1 llA llB [] [5] [] [10]
    ⟨by decide, rfl, by decide, by decide, rfl⟩
    ⟨by decide, rfl, by decide, by decide, rfl⟩
    (by decide) (by decide)
  exact ⟨hc.1, hc.2.2.1.sz, ha.1, hv.1.trans (by decide), hv.2.2.1⟩

/-- C2: the public constructor accepts `initialCapacity = 0`
(`Vector<int> v(0)` compiles and runs), and `append` on that vector
breaks the `size ≤ capacity` invariant: `reallocateMemoryIfNeeded` doubles
the capacity `0` to `0`, the write `elements[size]` goes past the
zero-length allocation, and `size` becomes `1 > 0 = capacity`.  The claimed
invariant does not hold on every state reachable by public operations. -/
theorem c2_capacity_zero_append_breaks_invariant :
    ((VecState.new Nat 0 0).append 7).size = 1 ∧
    ((VecState.new Nat 0 0).append 7).capacity = 0 ∧
    ¬ ((VecState.new Nat 0 0).append 7).WF := by
  refine ⟨rfl, rfl, fun h => absurd h.2 (by decide)⟩

/-- C3, counterexample: for the reachable capacity-0 array the growth step
does not double the capacity (`0 * 2 = 0`), and appending to the full
(empty) array of capacity 0 loses the appended value: the live sequence
afterwards is not the old sequence with 7 at the back. -/
theorem c3_counterexample_capacity_zero :
    (VecState.new Nat 0 0).size = (VecState.new Nat 0 0).capacity ∧
    ((VecState.new Nat 0 0).reallocateMemory).capacity = 0 ∧
    ((VecState.new Nat 0 0).append 7).live ≠ (VecState.new Nat 0 0).live ++ [7] := by
  refine ⟨rfl, rfl, by decide⟩

/-- C3, amended to positive capacity: on a well-formed array of capacity
`C ≥ 1` that is full (`size = capacity`), an `append` — or a `prepend` or
an `insert` at any cursor, all three of which grow through the same
`reallocateMemoryIfNeeded` path — doubles the capacity to `C * 2`; and
`append` preserves all `C` existing elements in order, storing the
appended value as the new last element. -/
theorem c3_growth_doubles_and_full_append_preserves (v : VecState T) (item : T)
    (pos : VecIter)
    (hwf : v.WF) (hcap : 1 ≤ v.capacity) (hfull : v.size = v.capacity) :
    (v.append item).capacity = v.capacity * 2 ∧
    (v.prepend item).capacity = v.capacity * 2 ∧
    (v.insert pos item).capacity = v.capacity * 2 ∧
    (v.append item).live = v.live ++ [item] ∧
    (v.append item).size = v.size + 1 ∧
    (v.append item).WF := by
  obtain ⟨hlive, hsize, hwf2, _, _⟩ := VecState.append_spec v item hwf hcap
  have hdouble : (v.reallocateMemoryIfNeeded).capacity = v.capacity * 2 := by
    rw [VecState.reallocateMemoryIfNeeded, if_pos (by omega)]
    rfl
  exact ⟨hdouble, hdouble, hdouble, hlive, hsize, hwf2⟩

/-- C3 at a closed input: appending 7 to the full one-slot vector holding 8
doubles the capacity to 2 and yields the live sequence 8, 7; prepending or
inserting 7 instead also doubles the capacity to 2. -/
theorem c3_growth_doubles_and_full_append_preserves_witness :
    (vec1.append 7).capacity = 2 ∧ (vec1.prepend 7).capacity = 2 ∧
    (vec1.insert ⟨0, .REGULAR⟩ 7).capacity = 2 ∧ (vec1.append 7).live = [8, 7] := by
  obtain ⟨hc, hp, hi, hl, _, _⟩ := c3_growth_doubles_and_full_append_preserves vec1 7
    ⟨0, .REGULAR⟩ ⟨by decide, by decide⟩ (by decide) (by decide)
  exact ⟨hc.trans (by decide), hp.trans (by decide), hi.trans (by decide),
    hl.trans (by decide)⟩

/-- C4: `LinkedList::ConstIterator::operator--(int)` calls `operator++()`
in its body, so post-decrement moves the cursor *forward*.  On the list
10, 20 (nodes 3, 4 between guards 1, 2): post-decrement at node 4 leaves
the cursor on node 2 — the `end()` guard — while pre-decrement correctly
yields the predecessor node 3; post-decrement at the first element (node 3,
where the claim says one step toward the front) moves to node 4. -/
theorem c4_post_decrement_moves_forward :
    LL.iterPostDec store2 llC 4 = .ok (4, 2) ∧
    LL.iterDec store2 llC 4 = .ok 3 ∧
    (2 : Nat) = LL.endNode llC ∧
    LL.iterPostDec store2 llC 3 = .ok (3, 4) := by
  exact ⟨rfl, rfl, rfl, rfl⟩

/-- C5: on both containers `popFirst`/`popLast` fail with the
empty-collection category exactly when `size` is zero; on a non-empty
container `popFirst` returns the first element and `popLast` the last, the
remaining elements keep their relative order (the vector's live sequence
becomes its tail / initial segment; the list's traversal yields the tail /
initial segment), and `size` decreases by one. -/
theorem c5_pop_first_last
    (v : VecState T) (hwf : v.WF)
    (m : Store T) (ll : LLMeta) (addrs : List Nat) (xs : List T)
    (R : LLRep m ll addrs xs) :
    ((v.popFirst).2 = .error .emptyCollection ↔ v.size = 0) ∧
    ((v.popLast).2 = .error .emptyCollection ↔ v.size = 0) ∧
    (v.size ≠ 0 →
      (v.popFirst).2 = .ok (v.live.getD 0 default) ∧
      (v.popFirst).1.live = v.live.drop 1 ∧
      (v.popFirst).1.size = v.size - 1) ∧
    (v.size ≠ 0 →
      (v.popLast).2 = .ok (v.live.getD (v.size - 1) default) ∧
      (v.popLast).1.live = v.live.dropLast ∧
      (v.popLast).1.size = v.size - 1) ∧
    ((LL.popFirst m ll).2 = .error .emptyCollection ↔ ll.size = 0) ∧
    ((LL.popLast m ll).2 = .error .emptyCollection ↔ ll.size = 0) ∧
    (∀ y ys, xs = y :: ys →
      (LL.popFirst m ll).2 = .ok y ∧
      LL.traverse (LL.popFirst m ll).1.1 (LL.popFirst m ll).1.2 = .ok ys ∧
      (LL.popFirst m ll).1.2.size = ll.size - 1) ∧
    (∀ zs z, xs = zs ++ [z] →
      (LL.popLast m ll).2 = .ok z ∧
      LL.traverse (LL.popLast m ll).1.1 (LL.popLast m ll).1.2 = .ok zs ∧
      (LL.popLast m ll).1.2.size = ll.size - 1) := by
  obtain ⟨hpf0, hpfS⟩ := VecState.popFirst_spec v hwf
  obtain ⟨hpl0, hplS⟩ := VecState.popLast_spec v hwf
  have hlen : addrs.length = xs.length := by
    have hv2 := congrArg List.length R.vals
    simpa using hv2
  have hxsne : ll.size ≠ 0 → xs ≠ [] := by
    intro h0 hh
    apply h0
    rw [R.sz, hh]
    rfl
  have haddrne : xs ≠ [] → addrs ≠ [] := by
    intro hx hh
    apply hx
    rw [hh] at hlen
    have h0 : xs.length = 0 := by simpa using hlen.symm
    exact List.length_eq_zero.mp h0
  have hllpf : ∀ y ys, xs = y :: ys →
      (LL.popFirst m ll).2 = .ok y ∧
      LL.traverse (LL.popFirst m ll).1.1 (LL.popFirst m ll).1.2 = .ok ys ∧
      (LL.popFirst m ll).1.2.size = ll.size - 1 := by
    intro y ys hy
    obtain ⟨c, rest, hcr⟩ := List.exists_cons_of_ne_nil (haddrne (by rw [hy]; simp))
    obtain ⟨h1, h2, h3, _, _⟩ := (LL.rep_popFirst m ll addrs xs R).2 c rest y ys hcr hy
    exact ⟨h1, LL.rep_traverse _ _ _ _ h2, h3⟩
  have hllpl : ∀ zs z, xs = zs ++ [z] →
      (LL.popLast m ll).2 = .ok z ∧
      LL.traverse (LL.popLast m ll).1.1 (LL.popLast m ll).1.2 = .ok zs ∧
      (LL.popLast m ll).1.2.size = ll.size - 1 := by
    intro zs z hz
    have hane : addrs ≠ [] := haddrne (by rw [hz]; simp)
    rcases List.eq_nil_or_concat addrs with hnil | ⟨l2, w2, hcat⟩
    · exact absurd hnil hane
    · rw [List.concat_eq_append] at hcat
      obtain ⟨h1, h2, h3, _, _⟩ := (LL.rep_popLast m ll addrs xs R).2 l2 w2 zs z hcat hz
      exact ⟨h1, LL.rep_traverse _ _ _ _ h2, h3⟩
  refine ⟨?_, ?_, fun h0 => ?_, fun h0 => ?_, ?_, ?_, hllpf, hllpl⟩
  · constructor
    · intro he
      by_contra h0
      obtain ⟨h1, _, _⟩ := hpfS h0
      exact absurd (h1.symm.trans he) (by simp)
    · intro h0
      rw [hpf0 h0]
  · constructor
    · intro he
      by_contra h0
      obtain ⟨h1, _, _⟩ := hplS h0
      exact absurd (h1.symm.trans he) (by simp)
    · intro h0
      rw [hpl0 h0]
  · obtain ⟨h1, h2, h3, _, _⟩ := hpfS h0
    exact ⟨h1, h2, h3⟩
  · obtain ⟨h1, h2, h3, _, _⟩ := hplS h0
    exact ⟨h1, h2, h3⟩
  · constructor
    · intro he
      by_contra h0
      obtain ⟨y, ys, hy⟩ := List.exists_cons_of_ne_nil (hxsne h0)
      obtain ⟨h1, _, _⟩ := hllpf y ys hy
      exact absurd (h1.symm.trans he) (by simp)
    · intro h0
      rw [(LL.rep_popFirst m ll addrs xs R).1 h0]
  · constructor
    · intro he
      by_contra h0
      rcases List.eq_nil_or_concat xs with hnil | ⟨zs, z, hcat⟩
      · exact absurd hnil (hxsne h0)
      · rw [List.concat_eq_append] at hcat
        obtain ⟨h1, _, _⟩ := hllpl zs z hcat
        exact absurd (h1.symm.trans he) (by simp)
    · intro h0
      rw [(LL.rep_popLast m ll addrs xs R).1 h0]

/-- C5 at a closed input: on the two-element vector 8, 9 and the
two-element list 10, 20, `popFirst` returns the first element, `popLast`
the last, and the list's remaining traversal is its tail. -/
theorem c5_pop_first_last_witness :
    (vec2.popFirst).2 = .ok 8 ∧
    (vec2.popLast).2 = .ok 9 ∧
    (LL.popFirst store2 llC).2 = .ok 10 ∧
    LL.traverse (LL.popFirst store2 llC).1.1 (LL.popFirst store2 llC).1.2 = .ok [20] ∧
    (LL.popLast store2 llC).2 = .ok 20 := by
  obtain ⟨_, _, hvf, hvl, _, _, hlf, hll⟩ := c5_pop_first_last vec2 ⟨by decide, by decide⟩
    store2 llC [3, 4] [10, 20] ⟨by decide, rfl, by decide, by decide, rfl⟩
  obtain ⟨ha, _, _⟩ := hvf (by decide)
  obtain ⟨hb, _, _⟩ := hvl (by decide)
  obtain ⟨hc, hd, _⟩ := hlf 10 [20] rfl
  obtain ⟨he, _, _⟩ := hll [10] 20 rfl
  exact ⟨ha, hb, hc, hd, he⟩

/-- C6: on both containers single-element `erase(pos)` fails — with the
out-of-range category — precisely when the container is empty or the
cursor denotes `end()` (the `END` tag for the array, the `lastGuard` node
for the list); and every failing `erase`/`popFirst`/`popLast` call leaves
the container's state exactly as it was (all throws precede all
mutation). -/
theorem c6_erase_invalid_position_iff
    (v : VecState T) (position : VecIter) (e : CErr)
    (m : Store T) (ll : LLMeta) (p : Nat) :
    ((v.eraseSingle position).2 = .error .invalidPosition ↔
      v.size = 0 ∨ position.tag = .END) ∧
    ((v.eraseSingle position).2 = .error e → (v.eraseSingle position).1 = v) ∧
    ((v.popFirst).2 = .error e → (v.popFirst).1 = v) ∧
    ((v.popLast).2 = .error e → (v.popLast).1 = v) ∧
    ((LL.eraseSingle m ll p).2 = .error .invalidPosition ↔
      ll.size = 0 ∨ p = ll.lastGuard) ∧
    ((LL.eraseSingle m ll p).2 = .error e → (LL.eraseSingle m ll p).1 = (m, ll)) ∧
    ((LL.popFirst m ll).2 = .error e → (LL.popFirst m ll).1 = (m, ll)) ∧
    ((LL.popLast m ll).2 = .error e → (LL.popLast m ll).1 = (m, ll)) := by
  obtain ⟨hv1, hv2⟩ := VecState.eraseSingle_fail_iff v position
  obtain ⟨hf1, hf2, hf3⟩ := VecState.fail_leaves_state v position e
  obtain ⟨hl1, hl2, hl3, hl4⟩ := LL.eraseSingle_fail_spec m ll p
  exact ⟨hv1, hf3, hf1, hf2, hl1, hl2 e, hl3 e, hl4 e⟩

/-- C6 at a closed input: erasing at a cursor on the empty vector of
capacity 1 and erasing at the end node of the list 10, 20 both fail with
the out-of-range category and change nothing. -/
theorem c6_erase_invalid_position_iff_witness :
    (vecE.eraseSingle ⟨0, .REGULAR⟩).2 = .error .invalidPosition ∧
    (vecE.eraseSingle ⟨0, .REGULAR⟩).1 = vecE ∧
    (LL.eraseSingle store2 llC 2).2 = .error .invalidPosition ∧
    (LL.eraseSingle store2 llC 2).1 = (store2, llC) := by
  obtain ⟨h1, h2, _, _, h5, h6, _, _⟩ :=
    c6_erase_invalid_position_iff vecE ⟨0, .REGULAR⟩ .invalidPosition store2 llC 2
  have hv := h1.mpr (Or.inl rfl)
  have hl := h5.mpr (Or.inr rfl)
  exact ⟨hv, h2 hv, hl, h6 hl⟩

/-- C7: on both containers range `erase(first, last)` with cursors that
compare equal is a no-op that raises nothing — also on an empty container
(`c` may be `end()` on the empty list, and the vector branch is taken for
any two equal cursors before any index is read); with `first ≠ last` on a
valid range it removes exactly `distance(first, last)` elements
(`li - fi` for the vector; for the list, walking `operator+` from the
first deleted node for `D2.length + 1` steps lands on `last`), decreasing
`size` by that amount and preserving the surviving elements' order. -/
theorem c7_erase_range
    (v : VecState T) (a b : VecIter) (fi li : Nat) (t1 t2 : VIterTag)
    (hab : VecState.iterEq a b = true)
    (hwf : v.WF) (ht1 : t1 ≠ .END) (hfl : fi < li) (hli : li ≤ v.size)
    (hmod : (v.size : Int) < sizeTMod)
    (m : Store T) (ll : LLMeta) (addrs : List Nat) (xs : List T)
    (R : LLRep m ll addrs xs) (c : Nat) (hc : c ∈ addrs ∨ c = ll.lastGuard) :
    v.eraseRange a b = v ∧
    (v.eraseRange ⟨v.base + fi, t1⟩ ⟨v.base + li, t2⟩).size = v.size - (li - fi) ∧
    (v.eraseRange ⟨v.base + fi, t1⟩ ⟨v.base + li, t2⟩).live =
      v.live.take fi ++ v.live.drop li ∧
    LL.eraseRange m ll c c = ((m, ll), .ok ()) ∧
    (∀ (P : List Nat) (f : Nat) (D2 S : List Nat) (xsP xsD xsS : List T) (lastN : Nat),
      addrs = P ++ f :: (D2 ++ S) → xs = xsP ++ xsD ++ xsS →
      P.length = xsP.length → D2.length + 1 = xsD.length →
      lastN = S.headD ll.lastGuard →
      (LL.eraseRange m ll f lastN).2 = .ok () ∧
      LL.traverse (LL.eraseRange m ll f lastN).1.1 (LL.eraseRange m ll f lastN).1.2 =
        .ok (xsP ++ xsS) ∧
      (LL.eraseRange m ll f lastN).1.2.size = ll.size - (D2.length + 1) ∧
      LL.iterAdd m f (D2.length + 1) = lastN) := by
  obtain ⟨hs, hl, _, _⟩ := VecState.eraseRange_spec v fi li t1 t2 hwf ht1 hfl hli hmod
  refine ⟨VecState.eraseRange_noop v a b hab, hs, hl,
    LL.rep_eraseRange_noop m ll addrs xs R c hc, ?_⟩
  intro P f D2 S xsP xsD xsS lastN haddr hxs hlP hlD hlast
  subst haddr
  subst hxs
  obtain ⟨h1, h2, h3, _, _, h6⟩ := LL.rep_eraseRange m ll P f D2 S xsP xsD xsS lastN
    R hlP hlD hlast
  exact ⟨h1, LL.rep_traverse _ _ _ _ h2, h3, h6⟩

/-- C7 at a closed input: `erase(it, it)` at the first node of the list
10, 20 and at two equal regular cursors of the vector 1, 2, 3 change
nothing; erasing the one-node range `[3, 4)` of the list removes exactly
one element (the `operator+` walk of length 1 from node 3 reaches node 4)
and erasing `[1, 2)` of the vector removes its middle element. -/
theorem c7_erase_range_witness :
    vec3.eraseRange ⟨0, .REGULAR⟩ ⟨0, .REGULAR⟩ = vec3 ∧
    (vec3.eraseRange ⟨1, .REGULAR⟩ ⟨2, .REGULAR⟩).size = 2 ∧
    (vec3.eraseRange ⟨1, .REGULAR⟩ ⟨2, .REGULAR⟩).live = [1, 3] ∧
    LL.eraseRange store2 llC 3 3 = ((store2, llC), .ok ()) ∧
    LL.traverse (LL.eraseRange store2 llC 3 4).1.1
      (LL.eraseRange store2 llC 3 4).1.2 = .ok [20] ∧
    (LL.eraseRange store2 llC 3 4).1.2.size = 1 ∧
    LL.iterAdd store2 3 1 = 4 := by
  obtain ⟨h0, hs, hl, hn, hr⟩ := c7_erase_range vec3 ⟨0, .REGULAR⟩ ⟨0, .REGULAR⟩ 1 2
    .REGULAR .REGULAR (by decide) ⟨by decide, by decide⟩ (by decide) (by decide)
    (by decide) (by decide)
    store2 llC [3, 4] [10, 20] ⟨by decide, rfl, by decide, by decide, rfl⟩
    3 (by decide)
  obtain ⟨e1, e2, e3, e4⟩ := hr [] 3 [] [4] [] [10] [20] 4 rfl rfl rfl rfl rfl
  exact ⟨h0, hs, hl, hn, e2, e3, e4⟩

/-- C8, counterexample: the vector's reachable empty state of capacity 0
falsifies the array half of the claim: after a single append the size is 1
but the appended value was written past the zero-length buffer, so the
live sequence (and hence forward traversal) does not yield the appended
element. -/
theorem c8_counterexample_capacity_zero_traversal :
    ((VecState.new Nat 0 0).appendAll [7]).size = 1 ∧
    ((VecState.new Nat 0 0).appendAll [7]).traverse = .ok [0] ∧
    ((VecState.new Nat 0 0).appendAll [7]).live ≠ [7] := by
  refine ⟨rfl, rfl, by decide⟩

/-- C8, amended to positive capacity for the array: starting from any empty
well-formed array state of capacity ≥ 1 (with the element counts below the
`size_t` range) and from any represented empty list, a sequence of appends
yields `size = ` the number of appended elements and forward traversal in
insertion order, and a sequence of prepends yields forward traversal in
reverse insertion order. -/
theorem c8_append_prepend_traversal
    (v : VecState T) (xs ys : List T)
    (hwf : v.WF) (hcap : 1 ≤ v.capacity) (hsz : v.size = 0)
    (hxmod : ((xs.length : Nat) : Int) < sizeTMod)
    (hymod : ((ys.length : Nat) : Int) < sizeTMod)
    (m : Store T) (ll : LLMeta) (R : LLRep m ll [] []) (zs ws : List T) :
    (v.appendAll xs).size = xs.length ∧
    (v.appendAll xs).traverse = .ok xs ∧
    (v.prependAll ys).size = ys.length ∧
    (v.prependAll ys).traverse = .ok ys.reverse ∧
    (LL.appendAll m ll zs).2.size = zs.length ∧
    LL.traverse (LL.appendAll m ll zs).1 (LL.appendAll m ll zs).2 = .ok zs ∧
    (LL.prependAll m ll ws).2.size = ws.length ∧
    LL.traverse (LL.prependAll m ll ws).1 (LL.prependAll m ll ws).2 = .ok ws.reverse := by
  have hlv : v.live = [] := by
    rw [VecState.live, hsz]
    rfl
  obtain ⟨haL, haS, haW, _, _⟩ := VecState.appendAll_spec xs v hwf hcap
  obtain ⟨hpL, hpS, hpW, _⟩ := VecState.prependAll_spec ys v hwf hcap
  have hsA : (v.appendAll xs).size = xs.length := by
    rw [haS, hsz]
    omega
  have hsP : (v.prependAll ys).size = ys.length := by
    rw [hpS, hsz]
    omega
  obtain ⟨addrs2, R2, _, _⟩ := LL.rep_appendAll zs m ll [] [] R
  obtain ⟨addrs3, R3, _, _⟩ := LL.rep_prependAll ws m ll [] [] R
  simp only [List.nil_append] at R2
  simp only [List.append_nil] at R3
  refine ⟨hsA, ?_, hsP, ?_, R2.sz, LL.rep_traverse _ _ _ _ R2,
    by rw [R3.sz, List.length_reverse], LL.rep_traverse _ _ _ _ R3⟩
  · have ht := VecState.traverse_ok (v.appendAll xs) (by rw [hsA]; exact hxmod)
    rw [haL, hlv] at ht
    simpa using ht
  · have ht := VecState.traverse_ok (v.prependAll ys) (by rw [hsP]; exact hymod)
    rw [hpL, hlv] at ht
    simpa using ht

/-- C8 at a closed input: from the empty capacity-1 vector and the empty
list between guards 1, 2, appending 1, 2 (resp. 10, 20) traverses in
insertion order and prepending traverses in reverse insertion order. -/
theorem c8_append_prepend_traversal_witness :
    (vecE.appendAll [1, 2]).traverse = .ok [1, 2] ∧
    (vecE.prependAll [1, 2]).traverse = .ok [2, 1] ∧
    (LL.appendAll store0 llA [10, 20]).2.size = 2 ∧
    LL.traverse (LL.appendAll store0 llA [10, 20]).1
      (LL.appendAll store0 llA [10, 20]).2 = .ok [10, 20] ∧
    LL.traverse (LL.prependAll store0 llA [30, 40]).1
      (LL.prependAll store0 llA [30, 40]).2 = .ok [40, 30] := by
  obtain ⟨_, h2, _, h4, h5, h6, _, h8⟩ := c8_append_prepend_traversal vecE [1, 2] [1, 2]
    ⟨by decide, by decide⟩ (by decide) (by decide) (by decide) (by decide)
    store0 llA ⟨by decide, rfl, by decide, by decide, rfl⟩ [10, 20] [30, 40]
  exact ⟨h2, h4, h5, h6, h8⟩

/-- C9: the array cursor's `operator==` returns `true` for any two
`END`-tagged cursors regardless of their raw positions (in particular for
positions lying in different buffers); when at least one side is not
`END`-tagged, equality holds exactly when the raw positions coincide. -/
theorem c9_iterator_equality_end_alias (a b : VecIter) :
    (a.tag = .END → b.tag = .END → VecState.iterEq a b = true) ∧
    (¬(a.tag = .END ∧ b.tag = .END) →
      (VecState.iterEq a b = true ↔ a.currentElement = b.currentElement)) := by
  constructor
  · intro ha hb
    rw [VecState.iterEq, if_pos ⟨ha, hb⟩]
  · intro h
    rw [VecState.iterEq, if_neg h]
    simp

/-- C9 at closed inputs: two `END` cursors at raw positions 0 and 5 compare
equal; a regular cursor compares equal to an `END` cursor at the same raw
position; two regular cursors at distinct positions compare unequal. -/
theorem c9_iterator_equality_end_alias_witness :
    VecState.iterEq ⟨0, .END⟩ ⟨5, .END⟩ = true ∧
    VecState.iterEq ⟨3, .REGULAR⟩ ⟨3, .END⟩ = true ∧
    VecState.iterEq ⟨3, .REGULAR⟩ ⟨4, .REGULAR⟩ ≠ true := by
  refine ⟨(c9_iterator_equality_end_alias ⟨0, .END⟩ ⟨5, .END⟩).1 rfl rfl, ?_, ?_⟩
  · exact ((c9_iterator_equality_end_alias ⟨3, .REGULAR⟩ ⟨3, .END⟩).2 (by decide)).mpr rfl
  · intro hh
    have h34 := ((c9_iterator_equality_end_alias ⟨3, .REGULAR⟩ ⟨4, .REGULAR⟩).2
      (by decide)).mp hh
    exact absurd h34 (by decide)

/-- C10: `operator+`/`operator-` construct the result with the
constructor's default tag, so an offset cursor is always `REGULAR`
whatever its position.  Hence on a non-empty array `begin() + size`
compares equal to `end()` (raw positions agree) and yet, unlike `end()`
itself, dereferencing it takes the non-error branch (reading the
one-past-the-end slot, undefined behaviour modelled by `default`),
incrementing it succeeds (and only then tags `END`), and `erase` at it is
not rejected by the end-cursor check. -/
theorem c10_offset_cursors_regular (v : VecState T) (it : VecIter) (d : Int)
    (h0 : 0 < v.size) (hmod : (v.size : Int) + 1 < sizeTMod) :
    (VecState.iterAdd it d).tag = .REGULAR ∧
    (VecState.iterSub it d).tag = .REGULAR ∧
    VecState.iterEq (VecState.iterAdd v.cbegin v.size) v.cend = true ∧
    v.deref (VecState.iterAdd v.cbegin v.size) = .ok (v.elements.getD v.size default) ∧
    v.iterInc (VecState.iterAdd v.cbegin v.size) =
      .ok ⟨v.base + (v.size : Int) + 1, .END⟩ ∧
    (v.eraseSingle (VecState.iterAdd v.cbegin v.size)).2 = .ok () ∧
    v.deref v.cend = .error .invalidPosition ∧
    v.iterInc v.cend = .error .invalidPosition := by
  have hm1 : (v.size : Int) < sizeTMod := by omega
  have htag : (VecState.iterAdd v.cbegin (v.size : Int)).tag = VIterTag.REGULAR := rfl
  have hne : ¬ (VecState.iterAdd v.cbegin (v.size : Int)).tag = VIterTag.END := by
    rw [htag]
    decide
  have hcur : (VecState.iterAdd v.cbegin (v.size : Int)).currentElement =
      v.base + (v.size : Int) := rfl
  have hcalc : v.calculateIndex (VecState.iterAdd v.cbegin (v.size : Int)) = v.size := by
    show toSizeT (v.base + (v.size : Int) - v.base) = v.size
    exact toSizeT_shift v.base v.size hm1
  have hts : toSizeT (v.base + (v.size : Int) + 1 - v.base) = v.size + 1 := by
    have hcast : v.base + (v.size : Int) + 1 = v.base + ((v.size + 1 : Nat) : Int) := by
      push_cast
      ring
    rw [hcast]
    exact toSizeT_shift v.base (v.size + 1) (by push_cast; exact hmod)
  refine ⟨rfl, rfl, ?_, ?_, ?_, ?_, ?_, ?_⟩
  · rw [VecState.cend_eq, VecState.iterEq, if_neg (fun hh => absurd (htag.symm.trans hh.1)
      (by decide))]
    rw [hcur]
    simp
  · rw [VecState.deref, if_neg hne, hcalc]
  · rw [VecState.iterInc, if_neg hne]
    simp only
    rw [hcur, hts, if_pos (by omega)]
  · rw [VecState.eraseSingle, if_neg (by omega), if_neg hne]
  · rw [VecState.cend_eq, VecState.deref, if_pos rfl]
  · rw [VecState.cend_eq, VecState.iterInc, if_pos rfl]

/-- C10 at a closed input: on the one-element vector holding 8, an `END`
cursor offset by 3 comes back `REGULAR`, `begin() + 1` compares equal to
`end()`, and `erase(begin() + 1)` passes the end-cursor check. -/
theorem c10_offset_cursors_regular_witness :
    (VecState.iterAdd ⟨7, .END⟩ 3).tag = .REGULAR ∧
    VecState.iterEq (VecState.iterAdd vec1.cbegin vec1.size) vec1.cend = true ∧
    (vec1.eraseSingle (VecState.iterAdd vec1.cbegin vec1.size)).2 = .ok () := by
  obtain ⟨h1, _, h3, _, _, h6, _, _⟩ := c10_offset_cursors_regular vec1 ⟨7, .END⟩ 3
    (by decide) (by decide)
  exact ⟨h1, h3, h6⟩

end Claims
